import Mathlib

/-! Shallow embedding of the AioRepositor schema-driven data-access layer
(schema_parser.py, dc_factory.py, repo_factory.py, db_connection.py) and
theorems checking the specification's claims against the embedded code.
Strings are modelled as lists of characters; the asynchronous SQL engine is
modelled as an oracle mapping a statement to either a cursor or a failure. -/

namespace AioRepo

/- ===================================================================
   Python string primitives over character lists
   =================================================================== -/

/-- Character strings are modelled as lists of characters. -/
abbrev Str := List Char

/-- Shorthand turning a Lean string literal into a character list. -/
def S (s : String) : Str := s.data

/-- Python whitespace characters, as recognised by str.strip and str.split. -/
def pyIsSpace (c : Char) : Bool :=
  c == ' ' || c == '\t' || c == '\n' || c == '\r' || c == '\x0b' || c == '\x0c'

/-- Python str.lstrip() with no argument. -/
def lstrip (s : Str) : Str := s.dropWhile pyIsSpace

/-- Python str.rstrip() with no argument. -/
def rstrip (s : Str) : Str := (s.reverse.dropWhile pyIsSpace).reverse

/-- Python str.strip() with no argument. -/
def strip (s : Str) : Str := rstrip (lstrip s)

/-- Python str.upper() on ASCII text. -/
def upper (s : Str) : Str := s.map Char.toUpper

/-- Python str.startswith for a single pattern. -/
def startsW : Str → Str → Bool
  | [], _ => true
  | _ :: _, [] => false
  | p :: ps, c :: cs => p == c && startsW ps cs

/-- Case-insensitive startswith, as in `s.upper().startswith(p)`. -/
def startsWithCI (p s : Str) : Bool := startsW (upper p) (upper s)

/-- Python str.startswith with a tuple of patterns. -/
def startsWithAny (ks : List Str) (n : Str) : Bool := ks.any (fun k => startsW k n)

/-- Worker for splitWs, accumulating the current token reversed. -/
def splitWsGo : Str → Str → List Str
  | [], cur => if cur = [] then [] else [cur.reverse]
  | c :: rest, cur =>
    if pyIsSpace c then
      if cur = [] then splitWsGo rest []
      else cur.reverse :: splitWsGo rest []
    else splitWsGo rest (c :: cur)

/-- Python str.split() with no argument: split on whitespace runs. -/
def splitWs (s : Str) : List Str := splitWsGo s []

/-- Python str.split(None, 1): first whitespace-delimited token, then the rest
with the separating whitespace run removed (trailing whitespace kept). -/
def splitWs1 (s : Str) : List Str :=
  let s1 := lstrip s
  match s1 with
  | [] => []
  | _ =>
    let tok := s1.takeWhile (fun c => !pyIsSpace c)
    let rest := (s1.drop tok.length).dropWhile pyIsSpace
    if rest = [] then [tok] else [tok, rest]

/-- Python str.split('(')[0]: the text before the first opening parenthesis. -/
def takePar (s : Str) : Str := s.takeWhile (fun c => c != '(')

/-- Lookup in an association list keyed by strings (Python dict read). -/
def lookupStr {α : Type} : List (Str × α) → Str → Option α
  | [], _ => none
  | (k, v) :: rest, n => if k = n then some v else lookupStr rest n

/-- Python dict assignment d[k] = v: overwrite in place, else append. -/
def dictInsert {α : Type} (m : List (Str × α)) (k : Str) (v : α) : List (Str × α) :=
  if (lookupStr m k).isSome then
    m.map (fun kv => if kv.1 = k then (k, v) else kv)
  else m ++ [(k, v)]

/-- Python errors surfaced by the embedded code. -/
inductive PyErr where
  | valueError : Str → PyErr
  | indexError : PyErr
deriving DecidableEq

/- ===================================================================
   schema_parser.py : SchemaParser.generate_sql
   =================================================================== -/

/-- Constraint member name patterns used by generate_sql and the validator. -/
def constraint_keywords : List Str := [S "PRIMARY KEY", S "UNIQUE", S "CHECK", S "FOREIGN KEY"]

/-- Member classification: a name starting with one of the constraint keywords
is a table constraint, anything else is a data column. -/
def isConstraintName (n : Str) : Bool := startsWithAny constraint_keywords n

/-- Rendering of one member as `"<name> <definition>"`. -/
def renderMember (m : Str × Str) : Str := m.1 ++ ' ' :: m.2

/-- Index-creation statement for a hinted column. -/
def idx_stmt (table col : Str) : Str :=
  S "CREATE INDEX IF NOT EXISTS idx_" ++ table ++ S "_" ++ col ++ S " ON " ++
    table ++ S " (" ++ col ++ S ");"

/-- One CREATE TABLE IF NOT EXISTS statement over the rendered member list. -/
def create_table_stmt (table : Str) (all_defs : List Str) : Str :=
  S "CREATE TABLE IF NOT EXISTS " ++ table ++ S " (\n    " ++
    List.intercalate (S ",\n    ") all_defs ++ S "\n);"

/-- Data-column names of one table, in declaration order. -/
def dataFields (cols : List (Str × Str)) : List Str :=
  (cols.filter (fun m => !isConstraintName m.1)).map Prod.fst

/-- SQL statements generated for one table: the CREATE TABLE statement
(data columns before constraints) followed by index statements for hinted
columns; an empty hint list is falsy in Python and disables indexes. -/
def table_sql (table : Str) (cols : List (Str × Str)) (idxs : List Str) : List Str :=
  let column_defs := (cols.filter (fun m => !isConstraintName m.1)).map renderMember
  let constraints := (cols.filter (fun m => isConstraintName m.1)).map renderMember
  let indexes := (cols.filter (fun m => !idxs.isEmpty && idxs.contains m.1)).map
    (fun m => idx_stmt table m.1)
  create_table_stmt table (column_defs ++ constraints) :: indexes

/-- SchemaParser.generate_sql: the statements of all tables joined with blank
lines, plus the per-table list of valid dataclass field names. -/
def generate_sql (schema : List (Str × List (Str × Str))) (idxs : List Str) :
    Str × List (Str × List Str) :=
  (List.intercalate (S "\n\n") ((schema.map (fun p => table_sql p.1 p.2 idxs)).flatten),
   schema.map (fun p => (p.1, dataFields p.2)))

/- ===================================================================
   schema_parser.py : SchemaValidator.validate
   =================================================================== -/

/-- Default recognised base SQL types. -/
def default_sql_types : List Str :=
  [S "INTEGER", S "TEXT", S "REAL", S "BLOB", S "BOOLEAN", S "DECIMAL", S "TIMESTAMP"]

/-- Python `default_sql_types if not sql_types else sql_types`: both None and
an empty collection fall back to the defaults. -/
def required_types (sql_types : Option (List Str)) : List Str :=
  match sql_types with
  | none => default_sql_types
  | some l => if l = [] then default_sql_types else l

/-- Base-type tokens that bypass the membership check inside validate. -/
def keyword_tokens : List Str := [S "PRIMARY", S "FOREIGN", S "CHECK", S "UNIQUE"]

/-- Exact text of the ValueError raised for an unrecognised column type. -/
def invalid_type_msg (table col ty : Str) : Str :=
  S "Invalid SQL type '" ++ ty ++ S "' in table '" ++ table ++ S "', column '" ++ col ++ S "'"

/-- Validation of a single member of a table, as in the body of validate's
inner loop: constraint-named members are skipped, the first token of the
definition is uppercased, keyword tokens are skipped, and otherwise the token
stripped of a parenthesized suffix must belong to the recognised set. -/
def check_column (table col ty : Str) (req : List Str) : Except PyErr Unit :=
  if isConstraintName col then .ok ()
  else
    match splitWs ty with
    | [] => .error .indexError
    | tok :: _ =>
      let base := upper tok
      if base ∈ keyword_tokens then .ok ()
      else
        let base2 := takePar base
        if base2 ∈ req then .ok ()
        else .error (.valueError (invalid_type_msg table col base2))

/-- Inner loop of validate over one table's members; an error propagates as a
raised exception does. -/
def validate_cols (table : Str) (cols : List (Str × Str)) (req : List Str) :
    Except PyErr Unit :=
  match cols with
  | [] => .ok ()
  | (c, t) :: rest =>
    match check_column table c t req with
    | .ok _ => validate_cols table rest req
    | .error e => .error e

/-- Outer loop of validate over the schema's tables. -/
def validate_go : List (Str × List (Str × Str)) → List Str → Except PyErr Unit
  | [], _ => .ok ()
  | (t, cols) :: rest, req =>
    match validate_cols t cols req with
    | .ok _ => validate_go rest req
    | .error e => .error e

/-- SchemaValidator.validate: returns True, or raises on the first bad column. -/
def validate (schema : List (Str × List (Str × Str))) (sql_types : Option (List Str)) :
    Except PyErr Bool :=
  match validate_go schema (required_types sql_types) with
  | .ok _ => .ok true
  | .error e => .error e

/-- First offending data column of one table: the (table, column, stripped
uppercased type) triple validate would report, scanning in order. -/
def first_offense_cols (table : Str) (cols : List (Str × Str)) (req : List Str) :
    Option (Str × Str × Str) :=
  match cols with
  | [] => none
  | (c, t) :: rest =>
    if isConstraintName c then first_offense_cols table rest req
    else
      match splitWs t with
      | [] => first_offense_cols table rest req
      | tok :: _ =>
        let base := upper tok
        if base ∈ keyword_tokens then first_offense_cols table rest req
        else
          let base2 := takePar base
          if base2 ∈ req then first_offense_cols table rest req
          else some (table, c, base2)

/-- First offending data column of a schema, in scan order. -/
def first_offense : List (Str × List (Str × Str)) → List Str → Option (Str × Str × Str)
  | [], _ => none
  | (t, cols) :: rest, req =>
    match first_offense_cols t cols req with
    | some o => some o
    | none => first_offense rest req

/-- Every data column's definition has a first whitespace-delimited token
(rules out the IndexError Python would raise on an empty definition). -/
abbrev TokensExist (schema : List (Str × List (Str × Str))) : Prop :=
  ∀ p ∈ schema, ∀ m ∈ p.2, isConstraintName m.1 = false → splitWs m.2 ≠ []

/- ===================================================================
   dc_factory.py : RepoDataClass
   =================================================================== -/

/-- Host types a generated dataclass field can take. -/
inductive HostType where
  | hInt
  | hStr
  | hFloat
  | hBytes
  | hBool
deriving DecidableEq

/-- The SQL-type to host-type map declared inside field_type. -/
def type_map : List (Str × HostType) :=
  [(S "INTEGER", .hInt), (S "TEXT", .hStr), (S "REAL", .hFloat),
   (S "BLOB", .hBytes), (S "BOOLEAN", .hBool), (S "DECIMAL", .hFloat),
   (S "TIMESTAMP", .hStr)]

/-- RepoDataClass.field_type: the key looked up in the SQL-type map is the
uppercased field name it receives; the default value is always None. -/
def field_type (field_name : Str) : HostType × Option Unit :=
  if field_name = S "id" then (.hInt, none)
  else ((lookupStr type_map (upper field_name)).getD .hStr, none)

/-- RepoDataClass.__call__: the generated dataclass field list, one field per
valid field name, typed by field_type. -/
def make_repo_dataclass (fields : List Str) : List (Str × HostType × Option Unit) :=
  fields.map (fun k => (k, field_type k))

/-- The claim's mapping, for comparison: the host type determined by the
column's declared SQL type (INTEGER to integer, TEXT and TIMESTAMP to string,
REAL and DECIMAL to float, BLOB to bytes, BOOLEAN to boolean, default string). -/
def claim_host_type (sql_decl : Str) : HostType :=
  (lookupStr type_map (upper sql_decl)).getD .hStr

/- ===================================================================
   repo_factory.py : query construction
   =================================================================== -/

/-- Fields kept by dc_to_insertion_query's dict comprehension: value not None,
or name different from id. -/
def insertionKeys {α : Type} (d : List (Str × Option α)) : List Str :=
  (d.filter (fun kv => kv.2.isSome || kv.1 != S "id")).map Prod.fst

/-- GeneratedRepository.dc_to_insertion_query: the INSERT OR REPLACE statement
over the kept fields, with named placeholders. -/
def dc_to_insertion_query {α : Type} (table_name : Str) (d : List (Str × Option α)) : Str :=
  let keys := insertionKeys d
  S "INSERT OR REPLACE INTO " ++ table_name ++ S " (" ++
    List.intercalate (S ", ") keys ++ S ") VALUES (" ++
    List.intercalate (S ", ") (keys.map (fun k => ':' :: k)) ++ S ")"

/-- GeneratedRepository.query_conditions: condition building from keyword
filter names, for the select, select_batch and delete modes. -/
def query_conditions (table_name : Str) (select select_batch del : Bool)
    (kwargs : List Str) : Except PyErr Str :=
  let conds := List.intercalate (S " AND ") (kwargs.map (fun k => k ++ S " = :" ++ k))
  if select then
    .ok (S "SELECT * FROM " ++ table_name ++ S " WHERE " ++ conds ++ S " LIMIT 1")
  else if select_batch then
    .ok (S "SELECT * FROM " ++ table_name ++ S " WHERE " ++
      (if kwargs ≠ [] then conds else S "1=1"))
  else if del then
    .ok (S "DELETE FROM " ++ table_name ++ S " WHERE " ++ conds)
  else .error (.valueError (S "Wrong query conditions"))

/- ===================================================================
   repo_factory.py : execution model for _execute, save_many, delete
   =================================================================== -/

/-- Post-execution cursor metadata the embedded code reads. -/
structure Cursor where
  lastrowid : Option Int
  rowcount : Int
deriving DecidableEq

/-- The external SQL engine, abstracted as an oracle from a statement to a
cursor (success) or none (the statement raises). -/
abbrev Eng := Str → Option Cursor

/-- Statement issued by _execute when transaction is requested. -/
def beginStmt : Str := S "BEGIN TRANSACTION;"

/-- Observable effects on the store: every statement issued to the engine in
order, plus commit and rollback counts. -/
structure ExecState where
  log : List Str
  commits : Nat
  rollbacks : Nat
deriving DecidableEq

/-- The initial execution state: no statement issued yet. -/
def initES : ExecState := ⟨[], 0, 0⟩

/-- GeneratedRepository._execute on its write path (fetch_all and fetch_one
false, the configuration save_single, save_many and delete use): issues BEGIN
TRANSACTION when transaction is set, then the query; commits on success when
commit is set; on an engine failure rolls back when transaction is set, and
returns None instead of a cursor. -/
def execWrite (eng : Eng) (query : Str) (transaction commit : Bool) (s : ExecState) :
    Option Cursor × ExecState :=
  if transaction then
    match eng beginStmt with
    | none => (none, ⟨s.log ++ [beginStmt], s.commits, s.rollbacks + 1⟩)
    | some _ =>
      match eng query with
      | none => (none, ⟨s.log ++ [beginStmt, query], s.commits, s.rollbacks + 1⟩)
      | some cur =>
        if commit then (some cur, ⟨s.log ++ [beginStmt, query], s.commits + 1, s.rollbacks⟩)
        else (some cur, ⟨s.log ++ [beginStmt, query], s.commits, s.rollbacks⟩)
  else
    match eng query with
    | none => (none, ⟨s.log ++ [query], s.commits, s.rollbacks⟩)
    | some cur =>
      if commit then (some cur, ⟨s.log ++ [query], s.commits + 1, s.rollbacks⟩)
      else (some cur, ⟨s.log ++ [query], s.commits, s.rollbacks⟩)

/-- Loop body of save_many over the record list: each record's insertion query
is executed through _execute with transaction and commit both set; the cursor
is only inspected by id_check, which never raises, so the loop always runs to
the end and the method then returns True. -/
def save_many_go {α : Type} (eng : Eng) (table_name : Str) :
    List (List (Str × Option α)) → ExecState → Bool × ExecState
  | [], s => (true, s)
  | d :: rest, s =>
    let q := dc_to_insertion_query table_name d
    let (_, s1) := execWrite eng q true true s
    save_many_go eng table_name rest s1

/-- GeneratedRepository.save_many: False on an empty list, else the loop. -/
def save_many {α : Type} (eng : Eng) (table_name : Str)
    (data_list : List (List (Str × Option α))) (s : ExecState) : Bool × ExecState :=
  if data_list.isEmpty then (false, s) else save_many_go eng table_name data_list s

/-- GeneratedRepository.delete: query_conditions runs before the try block, so
its errors propagate; the statement is executed with transaction and commit
set, and the result is whether a cursor with positive rowcount came back. -/
def deleteOp (eng : Eng) (table_name : Str) (kwargs : List Str) (s : ExecState) :
    Except PyErr (Bool × ExecState) :=
  match query_conditions table_name false false true kwargs with
  | .error e => .error e
  | .ok query =>
    let (cur, s1) := execWrite eng query true true s
    match cur with
    | some c => .ok (decide (c.rowcount > 0), s1)
    | none => .ok (false, s1)

/-- The DELETE statement delete builds from zero filters. -/
def emptyDeleteStmt (table_name : Str) : Str :=
  S "DELETE FROM " ++ table_name ++ S " WHERE "

/- ===================================================================
   repo_factory.py : RepositoryFactory cache
   =================================================================== -/

/-- The data a generated repository instance closes over: the table name, the
schema fields used by result_converter, and the generated dataclass. -/
structure RepoInst where
  table_name : Str
  schema_fields : List (Str × Str)
  repo_data : List (Str × HostType × Option Unit)
deriving DecidableEq

/-- The process-wide RepositoryFactory._instances cache. -/
abbrev FactoryState := List (Str × RepoInst)

/-- RepositoryFactory.create_repository: return the cached instance for the
table name if present, else build one from the supplied schema fields and
valid field names and cache it. -/
def create_repository (st : FactoryState) (table_name : Str)
    (schema_fields : List (Str × Str)) (fields : List Str) : RepoInst × FactoryState :=
  match lookupStr st table_name with
  | some inst => (inst, st)
  | none =>
    let inst : RepoInst := ⟨table_name, schema_fields, make_repo_dataclass fields⟩
    (inst, st ++ [(table_name, inst)])

/- ===================================================================
   db_connection.py : DatabaseConnection
   =================================================================== -/

/-- State of the singleton connection manager: the current handle if any, the
number of handles opened so far (fresh handles are numbered in order), and the
number of closes performed. -/
structure ConnState where
  conn : Option Nat
  opened : Nat
  closes : Nat
deriving DecidableEq

/-- The manager before any acquisition. -/
def initConn : ConnState := ⟨none, 0, 0⟩

/-- DatabaseConnection.__aenter__: open a fresh handle only when none is held,
and return the held handle. -/
def aenter (s : ConnState) : Nat × ConnState :=
  match s.conn with
  | some h => (h, s)
  | none => (s.opened, ⟨some s.opened, s.opened + 1, s.closes⟩)

/-- DatabaseConnection.__aexit__: close and clear the handle when one is held. -/
def aexit (s : ConnState) : ConnState :=
  match s.conn with
  | some _ => ⟨none, s.opened, s.closes + 1⟩
  | none => s

/-- One repository operation's `async with self.connection_manager` scope:
acquire, use the handle, release. -/
def runOp (s : ConnState) : Nat × ConnState :=
  let (h, s1) := aenter s
  (h, aexit s1)

/-- The connection state after n successive repository operations. -/
def opsN : Nat → ConnState → ConnState
  | 0, s => s
  | n + 1, s => opsN n (runOp s).2

/- Concrete engines and example data used by counterexamples and witnesses. -/

/-- Engine that accepts BEGIN TRANSACTION and rejects every other statement. -/
def engC1 : Eng := fun q => if q = beginStmt then some ⟨none, 0⟩ else none

/-- Example record whose insertion statement the engine engC2 rejects. -/
def r1ex : List (Str × Option Nat) := [(S "id", none), (S "a", some 1)]

/-- Example record whose insertion statement the engine engC2 accepts. -/
def r2ex : List (Str × Option Nat) := [(S "id", some 5), (S "b", some 2)]

/-- Insertion statement of r1ex. -/
def q1ex : Str := dc_to_insertion_query (S "t") r1ex

/-- Insertion statement of r2ex. -/
def q2ex : Str := dc_to_insertion_query (S "t") r2ex

/-- Engine rejecting exactly the statement q1ex. -/
def engC2 : Eng := fun q => if q = q1ex then none else some ⟨some 7, 1⟩

/-- A data column the validator would report: its member name is not
constraint-like, its definition's first token is none of the bypass keywords,
and the token stripped of a parenthesized suffix and uppercased is not in the
recognised set. -/
def OffendingMember (req : List Str) (m : Str × Str) : Prop :=
  isConstraintName m.1 = false ∧
  ∃ tok rest, splitWs m.2 = tok :: rest ∧ upper tok ∉ keyword_tokens ∧
    takePar (upper tok) ∉ req

/- ===================================================================
   schema_parser.py : SqlStrToDict (the DDL parser)
   =================================================================== -/

/-- Paren-depth counter update for one scanned character. -/
def depthStep (d : Int) (c : Char) : Int :=
  if c = '(' then d + 1 else if c = ')' then d - 1 else d

/-- Scanning loop of SqlStrToDict._split_columns: a comma at depth zero
separates (the current member is stripped and emitted, empty mid-list members
included), any other character is appended and updates the depth; at the end
the final member is emitted only when it strips to something. -/
def split_columns_go : Str → Int → Str → List Str
  | [], _, cur => if strip cur = [] then [] else [strip cur]
  | c :: rest, parens, cur =>
    if c = ',' ∧ parens = 0 then strip cur :: split_columns_go rest parens []
    else split_columns_go rest (depthStep parens c) (cur ++ [c])

/-- SqlStrToDict._split_columns. -/
def split_columns (s : Str) : List Str := split_columns_go s 0 []

/-- Specification-side chunking of a string at its top-level commas: the
paren-depth counter is incremented on an opening and decremented on a closing
parenthesis during a character-by-character scan, and a comma separates only
at depth zero. -/
def topChunksGo : Str → Int → List Str
  | [], _ => [[]]
  | c :: rest, d =>
    if c = ',' ∧ d = 0 then [] :: topChunksGo rest d
    else
      match topChunksGo rest (depthStep d c) with
      | [] => [[c]]
      | ch :: chs => (c :: ch) :: chs

/-- Chunks of a string between its top-level commas. -/
def topChunks (s : Str) : List Str := topChunksGo s 0

/-- Cleanup applied to the raw chunks: strip each one and drop the last chunk
when it strips to nothing. -/
def stripChunks : List Str → List Str
  | [] => []
  | [ch] => if strip ch = [] then [] else [strip ch]
  | ch :: chs => strip ch :: stripChunks chs

/-- Apply a function to the head chunk only. -/
def mapHead (f : Str → Str) : List Str → List Str
  | [] => []
  | ch :: chs => f ch :: chs

/-- Word character, as matched by the regex \w on this ASCII input. -/
def isWordChar (c : Char) : Bool := c.isAlpha || c.isDigit || c == '_'

/-- Literal the statement splitter searches for. -/
def ctLit : Str := S "CREATE TABLE"

/-- Literal terminating a matched statement. -/
def endLit : Str := S ");"

/-- First occurrence of pat inside s, as the text before and after it. -/
def splitAtSub (pat : Str) : Str → Option (Str × Str)
  | [] => if pat = [] then some ([], []) else none
  | c :: rest =>
    if startsW pat (c :: rest) then some ([], (c :: rest).drop pat.length)
    else
      match splitAtSub pat rest with
      | some (b, a) => some (c :: b, a)
      | none => none

/-- Fuelled scanner behind split_statements. -/
def findStmtsF : Nat → Str → List Str
  | 0, _ => []
  | _ + 1, [] => []
  | fuel + 1, c :: rest =>
    if startsWithCI ctLit (c :: rest) then
      match splitAtSub endLit ((c :: rest).drop ctLit.length) with
      | some (body, after) =>
        ((c :: rest).take ctLit.length ++ body ++ endLit) :: findStmtsF fuel after
      | none => findStmtsF fuel rest
    else findStmtsF fuel rest

/-- re.findall of `CREATE TABLE.*?\);` with DOTALL and IGNORECASE: leftmost
non-overlapping matches, each one lazily ending at the first following ");",
with scanning resuming after each match. -/
def split_statements (s : Str) : List Str := findStmtsF (s.length + 1) s

/-- Match of `\s+(\w+)\s*\(` at the start of s, returning the captured word. -/
def matchNameTail (s : Str) : Option Str :=
  let ws := s.takeWhile pyIsSpace
  if ws = [] then none
  else
    let s1 := s.dropWhile pyIsSpace
    let name := s1.takeWhile isWordChar
    if name = [] then none
    else
      match (s1.drop name.length).dropWhile pyIsSpace with
      | '(' :: _ => some name
      | _ => none

/-- re.search of `<kw>\s+(\w+)\s*\(` case-insensitively: the leftmost start
position where the whole pattern matches. -/
def searchName (kw : Str) : Str → Option Str
  | [] => none
  | c :: rest =>
    if startsWithCI kw (c :: rest) then
      match matchNameTail ((c :: rest).drop kw.length) with
      | some n => some n
      | none => searchName kw rest
    else searchName kw rest

/-- SqlStrToDict._extract_table_name. -/
def extract_table_name (stmt : Str) : Except PyErr Str :=
  match searchName (S "CREATE TABLE IF NOT EXISTS") stmt with
  | some n => .ok n
  | none =>
    match searchName (S "CREATE TABLE") stmt with
    | some n => .ok n
    | none => .error (.valueError (S "Table name not found in statement."))

/-- Text strictly before the last closing parenthesis of s. -/
def upToLastRp (s : Str) : Str :=
  ((s.reverse.dropWhile (fun c => c != ')')).drop 1).reverse

/-- re.search of `\((.*)\)` with DOTALL: the text between the first opening
parenthesis that still has a closing parenthesis after it and the last
closing parenthesis. -/
def parenBody : Str → Option Str
  | [] => none
  | '(' :: rest => if ')' ∈ rest then some (upToLastRp rest) else none
  | _ :: rest => parenBody rest

/-- Python str.find(')'): index of the first closing parenthesis, if any. -/
def indexOfRp (s : Str) : Option Nat :=
  if ')' ∈ s then some (s.takeWhile (fun c => c != ')')).length else none

/-- Python ' '.join. -/
def joinTokens (ts : List Str) : Str := List.intercalate (S " ") ts

/-- SqlStrToDict._parse_column: split on the first whitespace run into name
and definition, failing when there is no separator. -/
def parse_column (col : Str) : Except PyErr (Str × Str) :=
  match splitWs1 col with
  | [n, d] => .ok (strip n, strip d)
  | _ => .error (.valueError (S "Invalid column definition: '" ++ col ++ S "'"))

/-- SqlStrToDict._parse_constraint. -/
def parse_constraint (c0 : Str) : Except PyErr (Str × Str) :=
  let c := strip c0
  if startsWithCI (S "FOREIGN KEY") c then
    match indexOfRp c with
    | some j => .ok (strip (c.take (j + 1)), strip (c.drop (j + 1)))
    | none => .ok (strip (c.take 0), strip c)
  else if startsWithCI (S "PRIMARY KEY") c then
    if ')' ∈ c then .ok (S "PRIMARY KEY", strip (c.drop (S "PRIMARY KEY").length))
    else
      match splitWs1 c with
      | [k, v] => .ok (strip k, strip v)
      | _ => .error (.valueError (S "not enough values to unpack"))
  else
    match splitWs c with
    | [] => .error .indexError
    | k :: ts => .ok (strip k, strip (joinTokens ts))

/-- Classification step of _extract_columns: members whose uppercased text
starts with FOREIGN KEY or PRIMARY KEY go through _parse_constraint, all
others through _parse_column. -/
def parse_member (col : Str) : Except PyErr (Str × Str) :=
  if startsWithCI (S "FOREIGN KEY") col || startsWithCI (S "PRIMARY KEY") col then
    parse_constraint col
  else parse_column col

/-- Member loop of _extract_columns: strip, skip empties, parse, insert. -/
def processCols : List Str → List (Str × Str) → Except PyErr (List (Str × Str))
  | [], acc => .ok acc
  | col0 :: rest, acc =>
    let col := strip col0
    if col = [] then processCols rest acc
    else
      match parse_member col with
      | .ok (k, v) => processCols rest (dictInsert acc k v)
      | .error e => .error e

/-- SqlStrToDict._extract_columns. -/
def extract_columns (stmt : Str) : Except PyErr (List (Str × Str)) :=
  match parenBody stmt with
  | none => .error (.valueError (S "Column definitions not found."))
  | some body => processCols (split_columns body) []

/-- Statement loop of SqlStrToDict.parse. -/
def parseTables : List Str → List (Str × List (Str × Str)) →
    Except PyErr (List (Str × List (Str × Str)))
  | [], acc => .ok acc
  | stmt :: rest, acc =>
    match extract_table_name stmt with
    | .error e => .error e
    | .ok name =>
      match extract_columns stmt with
      | .error e => .error e
      | .ok cols => parseTables rest (dictInsert acc name cols)

/-- SqlStrToDict.parse: split the text into CREATE TABLE statements and build
the table dictionary. -/
def parse (s : Str) : Except PyErr (List (Str × List (Str × Str))) :=
  parseTables (split_statements s) []

/- ===================================================================
   Well-formedness of structured schemas, for the round-trip claim
   =================================================================== -/

/-- Characters benign inside a member clause: no semicolon and no whitespace
other than the plain space. -/
def goodChar (c : Char) : Bool :=
  c != ';' && c != '\t' && c != '\n' && c != '\r' && c != '\x0b' && c != '\x0c'

/-- Paren balance of a string. -/
def balance (s : Str) : Int := s.foldl depthStep 0

/-- No comma occurs at paren depth zero when scanning from depth d. -/
def sepFree : Str → Int → Bool
  | [], _ => true
  | c :: rest, d =>
    if c = ',' ∧ d = 0 then false
    else sepFree rest (depthStep d c)

/-- A plain identifier: nonempty and made of word characters. -/
def GoodName (n : Str) : Prop := n ≠ [] ∧ ∀ c ∈ n, isWordChar c = true

/-- Well-formed data column: word-character name that is not constraint-like,
definition nonempty, already stripped, of benign characters, paren-balanced
with no top-level comma, and whose rendered clause does not look like a
FOREIGN KEY or PRIMARY KEY constraint when uppercased. -/
def GoodData (n d : Str) : Prop :=
  GoodName n ∧ isConstraintName n = false ∧
  d ≠ [] ∧ (∀ c ∈ d, goodChar c = true) ∧ lstrip d = d ∧ rstrip d = d ∧
  balance d = 0 ∧ sepFree d 0 = true ∧
  startsWithCI (S "FOREIGN KEY") (renderMember (n, d)) = false ∧
  startsWithCI (S "PRIMARY KEY") (renderMember (n, d)) = false

/-- Well-formed constraint member: keyword-named, benign characters, balanced
with no top-level comma; a FOREIGN KEY or PRIMARY KEY clause must contain a
closing parenthesis, any other constraint clause a whitespace separator. -/
def GoodConstr (n d : Str) : Prop :=
  isConstraintName n = true ∧
  (∀ c ∈ renderMember (n, d), goodChar c = true) ∧
  balance (renderMember (n, d)) = 0 ∧ sepFree (renderMember (n, d)) 0 = true ∧
  (if startsW (S "FOREIGN KEY") n = true ∨ startsW (S "PRIMARY KEY") n = true
   then (')' ∈ strip (renderMember (n, d)))
   else (strip (renderMember (n, d))).any pyIsSpace = true)

/-- Well-formed table: distinct member names, each member well-formed for its
classification. -/
def GoodTable (cols : List (Str × Str)) : Prop :=
  (cols.map Prod.fst).Nodup ∧
  ∀ m ∈ cols, if isConstraintName m.1 then GoodConstr m.1 m.2 else GoodData m.1 m.2

/-- Well-formed schema: distinct word-character table names over well-formed
tables. -/
def GoodSchema (schema : List (Str × List (Str × Str))) : Prop :=
  (schema.map Prod.fst).Nodup ∧
  ∀ p ∈ schema, GoodName p.1 ∧ GoodTable p.2

instance (n : Str) : Decidable (GoodName n) := by
  unfold GoodName; infer_instance

instance (n d : Str) : Decidable (GoodData n d) := by
  unfold GoodData GoodName; infer_instance

instance (n d : Str) : Decidable (GoodConstr n d) := by
  unfold GoodConstr; infer_instance

instance (cols : List (Str × Str)) : Decidable (GoodTable cols) := by
  unfold GoodTable; infer_instance

instance (schema : List (Str × List (Str × Str))) : Decidable (GoodSchema schema) := by
  unfold GoodSchema GoodTable; infer_instance

/- ===================================================================
   Helper lemmas
   =================================================================== -/

/-- Lookup after appending a fresh key finds the appended value. -/
theorem lookupStr_append_self {α : Type} (st : List (Str × α)) (t : Str) (i : α)
    (h : lookupStr st t = none) : lookupStr (st ++ [(t, i)]) t = some i := by
  induction st with
  | nil => simp [lookupStr]
  | cons kv rest ih =>
    obtain ⟨k, v⟩ := kv
    by_cases hk : k = t
    · simp [lookupStr, hk] at h
    · simp only [lookupStr, List.cons_append, if_neg hk] at h ⊢
      exact ih h

/-- In a list with pairwise distinct keys, a key determines its value. -/
theorem val_eq_of_nodup_keys {β : Type} {d : List (Str × β)} {k : Str} {a b : β}
    (hnd : (d.map Prod.fst).Nodup) (ha : (k, a) ∈ d) (hb : (k, b) ∈ d) : a = b := by
  induction d with
  | nil => cases ha
  | cons kv rest ih =>
    simp only [List.map_cons, List.nodup_cons] at hnd
    rcases List.mem_cons.1 ha with h1 | h1 <;> rcases List.mem_cons.1 hb with h2 | h2
    · rw [← h1] at h2
      exact ((Prod.mk.injEq _ _ _ _ ▸ h2.symm : k = k ∧ a = b)).2
    · exact absurd (List.mem_map.2 ⟨(k, b), h2, by rw [← h1]⟩) hnd.1
    · exact absurd (List.mem_map.2 ⟨(k, a), h1, by rw [← h2]⟩) hnd.1
    · exact ih hnd.2 h1 h2

/-- Characterization of validate_cols through first_offense_cols, assuming
every data column's definition has a first token. -/
theorem validate_cols_eq_offense (t : Str) (cols : List (Str × Str)) (req : List Str)
    (h : ∀ m ∈ cols, isConstraintName m.1 = false → splitWs m.2 ≠ []) :
    validate_cols t cols req =
      match first_offense_cols t cols req with
      | none => .ok ()
      | some o => .error (.valueError (invalid_type_msg o.1 o.2.1 o.2.2)) := by
  induction cols with
  | nil => rfl
  | cons m rest ih =>
    obtain ⟨c, ty⟩ := m
    have hrest : ∀ m ∈ rest, isConstraintName m.1 = false → splitWs m.2 ≠ [] :=
      fun m hm => h m (List.mem_cons_of_mem _ hm)
    by_cases hc : isConstraintName c
    · simp only [validate_cols, check_column, hc, if_true, first_offense_cols]
      exact ih hrest
    · have hc' : isConstraintName c = false := by simpa using hc
      cases hsp : splitWs ty with
      | nil => exact absurd hsp (h (c, ty) (List.mem_cons_self _ _) hc')
      | cons tok tl =>
        by_cases hkw : upper tok ∈ keyword_tokens
        · simp only [validate_cols, check_column, hc', Bool.false_eq_true, if_false, hsp,
            if_pos hkw, first_offense_cols]
          exact ih hrest
        · by_cases hreq : takePar (upper tok) ∈ req
          · simp only [validate_cols, check_column, hc', Bool.false_eq_true, if_false, hsp,
              if_neg hkw, if_pos hreq, first_offense_cols]
            exact ih hrest
          · simp only [validate_cols, check_column, hc', Bool.false_eq_true, if_false, hsp,
              if_neg hkw, if_neg hreq, first_offense_cols]

/-- Characterization of validate through first_offense, assuming every data
column's definition has a first token. -/
theorem validate_eq_offense (schema : List (Str × List (Str × Str)))
    (types : Option (List Str)) (h : TokensExist schema) :
    validate schema types =
      match first_offense schema (required_types types) with
      | none => .ok true
      | some o => .error (.valueError (invalid_type_msg o.1 o.2.1 o.2.2)) := by
  have main : ∀ (sch : List (Str × List (Str × Str))),
      (∀ p ∈ sch, ∀ m ∈ p.2, isConstraintName m.1 = false → splitWs m.2 ≠ []) →
      validate_go sch (required_types types) =
        match first_offense sch (required_types types) with
        | none => .ok ()
        | some o => .error (.valueError (invalid_type_msg o.1 o.2.1 o.2.2)) := by
    intro sch hsch
    induction sch with
    | nil => rfl
    | cons p rest ih =>
      obtain ⟨t, cols⟩ := p
      have hcols := validate_cols_eq_offense t cols (required_types types)
        (fun m hm => hsch (t, cols) (List.mem_cons_self _ _) m hm)
      have hrest := ih (fun p hp => hsch p (List.mem_cons_of_mem _ hp))
      simp only [validate_go, first_offense, hcols]
      cases hfo : first_offense_cols t cols (required_types types) with
      | none => exact hrest
      | some o => rfl
  have hm := main schema h
  unfold validate
  rw [hm]
  cases hfo : first_offense schema (required_types types) <;> rfl

/-- A none result of first_offense_cols means no member of the table offends. -/
theorem first_offense_cols_none_iff (t : Str) (cols : List (Str × Str)) (req : List Str) :
    first_offense_cols t cols req = none ↔ ∀ m ∈ cols, ¬ OffendingMember req m := by
  induction cols with
  | nil => simp [first_offense_cols]
  | cons m rest ih =>
    obtain ⟨c, ty⟩ := m
    by_cases hc : isConstraintName c
    · have hnot : ¬ OffendingMember req (c, ty) := fun hOff => by
        have := hOff.1
        rw [hc] at this
        cases this
      simp only [first_offense_cols, hc, if_true, List.forall_mem_cons, ih]
      tauto
    · have hc' : isConstraintName c = false := by simpa using hc
      cases hsp : splitWs ty with
      | nil =>
        have hnot : ¬ OffendingMember req (c, ty) := fun hOff => by
          obtain ⟨_, tok, tl, htl, _⟩ := hOff
          rw [hsp] at htl
          cases htl
        simp only [first_offense_cols, hc', Bool.false_eq_true, if_false, hsp,
          List.forall_mem_cons, ih]
        tauto
      | cons tok tl =>
        have hoff_iff : OffendingMember req (c, ty) ↔
            (upper tok ∉ keyword_tokens ∧ takePar (upper tok) ∉ req) := by
          constructor
          · rintro ⟨_, tok', tl', htl', h1, h2⟩
            rw [hsp] at htl'
            injection htl' with e1 e2
            subst e1
            exact ⟨h1, h2⟩
          · rintro ⟨h1, h2⟩
            exact ⟨hc', tok, tl, hsp, h1, h2⟩
        by_cases hkw : upper tok ∈ keyword_tokens
        · have hnot : ¬ OffendingMember req (c, ty) := fun hOff => (hoff_iff.1 hOff).1 hkw
          simp only [first_offense_cols, hc', Bool.false_eq_true, if_false, hsp,
            if_pos hkw, List.forall_mem_cons, ih]
          tauto
        · by_cases hreq : takePar (upper tok) ∈ req
          · have hnot : ¬ OffendingMember req (c, ty) := fun hOff => (hoff_iff.1 hOff).2 hreq
            simp only [first_offense_cols, hc', Bool.false_eq_true, if_false, hsp,
              if_neg hkw, if_pos hreq, List.forall_mem_cons, ih]
            tauto
          · have hoff : OffendingMember req (c, ty) := hoff_iff.2 ⟨hkw, hreq⟩
            simp only [first_offense_cols, hc', Bool.false_eq_true, if_false, hsp,
              if_neg hkw, if_neg hreq, List.forall_mem_cons]
            constructor
            · intro hsome
              cases hsome
            · intro hall
              exact absurd hoff hall.1

/-- A none result of first_offense means no member of the schema offends. -/
theorem first_offense_none_iff (schema : List (Str × List (Str × Str))) (req : List Str) :
    first_offense schema req = none ↔ ∀ p ∈ schema, ∀ m ∈ p.2, ¬ OffendingMember req m := by
  induction schema with
  | nil => simp [first_offense]
  | cons p rest ih =>
    obtain ⟨t, cols⟩ := p
    simp only [first_offense, List.forall_mem_cons]
    cases hfo : first_offense_cols t cols req with
    | some o =>
      constructor
      · intro hsome; cases hsome
      · intro hall
        have := (first_offense_cols_none_iff t cols req).2 hall.1
        rw [this] at hfo
        cases hfo
    | none =>
      rw [ih]
      have := (first_offense_cols_none_iff t cols req).1 hfo
      tauto

/-- Loop invariant of save_many: with BEGIN always accepted, every record's
statement is issued inside its own transaction bracket, commits count the
accepted statements, rollbacks the rejected ones, and the loop returns True. -/
theorem save_many_go_spec {α : Type} (eng : Eng) (table : Str) (cur : Cursor)
    (hb : eng beginStmt = some cur) (ds : List (List (Str × Option α))) (s : ExecState) :
    save_many_go eng table ds s =
      (true,
       ⟨s.log ++ (ds.map (fun d => [beginStmt, dc_to_insertion_query table d])).flatten,
        s.commits + ds.countP (fun d => (eng (dc_to_insertion_query table d)).isSome),
        s.rollbacks + ds.countP (fun d => (eng (dc_to_insertion_query table d)).isNone)⟩) := by
  induction ds generalizing s with
  | nil => simp [save_many_go]
  | cons d rest ih =>
    simp only [save_many_go, execWrite, if_true, hb]
    cases hq : eng (dc_to_insertion_query table d) with
    | none =>
      rw [ih]
      simp [List.countP_cons, hq]
      omega
    | some c2 =>
      rw [ih]
      simp [List.countP_cons, hq]
      omega

/-- Behaviour of n repository operations starting with no held handle. -/
theorem opsN_spec (n : Nat) (s : ConnState) (h : s.conn = none) :
    opsN n s = ⟨none, s.opened + n, s.closes + n⟩ := by
  induction n generalizing s with
  | zero =>
    obtain ⟨c, o, cl⟩ := s
    cases h
    rfl
  | succ n ih =>
    have hstep : (runOp s).2 = ⟨none, s.opened + 1, s.closes + 1⟩ := by
      simp [runOp, aenter, aexit, h]
    rw [opsN, hstep, ih ⟨none, s.opened + 1, s.closes + 1⟩ rfl]
    simp
    omega

/- ===================================================================
   Claim theorems
   =================================================================== -/

/-- C1 counterexample: calling delete with zero keyword filters does not fail
with a ValueError; query_conditions returns a malformed DELETE statement with
an empty WHERE clause, and that statement is issued against the store (it
appears in the statement log) before the engine failure is swallowed. -/
theorem c1_delete_no_filters_counterexample :
    query_conditions (S "t") false false true [] = .ok (emptyDeleteStmt (S "t")) ∧
    deleteOp engC1 (S "t") [] initES =
      .ok (false, ⟨[beginStmt, emptyDeleteStmt (S "t")], 0, 1⟩) :=
  ⟨rfl, rfl⟩

/-- C1 amended: delete called with zero filters raises nothing; it builds
`DELETE FROM <table> WHERE ` with an empty condition list, issues it inside a
transaction, and when the engine rejects the malformed statement the failure
is rolled back and swallowed, so delete returns False. -/
theorem c1_delete_no_filters_amended (table : Str) (s : ExecState) (eng : Eng)
    (cur : Cursor) (hb : eng beginStmt = some cur)
    (hq : eng (emptyDeleteStmt table) = none) :
    query_conditions table false false true [] = .ok (emptyDeleteStmt table) ∧
    deleteOp eng table [] s =
      .ok (false, ⟨s.log ++ [beginStmt, emptyDeleteStmt table], s.commits, s.rollbacks + 1⟩) := by
  have hqc : query_conditions table false false true [] = .ok (emptyDeleteStmt table) := by
    simp [query_conditions, emptyDeleteStmt, List.intercalate]
  refine ⟨hqc, ?_⟩
  simp only [deleteOp, hqc, execWrite, hb, hq, if_true]

/-- C1 witness: the amended behaviour at a concrete table and engine. -/
theorem c1_delete_no_filters_amended_witness :
    query_conditions (S "t") false false true [] = .ok (emptyDeleteStmt (S "t")) ∧
    deleteOp engC1 (S "t") [] initES =
      .ok (false, ⟨[beginStmt, emptyDeleteStmt (S "t")], 0, 1⟩) := by
  have h := c1_delete_no_filters_amended (S "t") initES engC1 ⟨none, 0⟩ rfl rfl
  exact ⟨h.1, h.2⟩

/-- C2 counterexample: with an engine that rejects the first record's
statement and accepts the second, save_many still issues the second record's
statement, opens a transaction bracket per record (two BEGINs), rolls back
only the failed record, commits the second, and returns True rather than a
batch failure. -/
theorem c2_save_many_counterexample :
    save_many engC2 (S "t") [r1ex, r2ex] initES =
      (true, ⟨[beginStmt, q1ex, beginStmt, q2ex], 1, 1⟩) :=
  rfl

/-- C2 amended: save_many wraps each record's insert in its own BEGIN and
commit; a statement failure rolls back only that record's transaction and is
swallowed, the remaining records are still processed, and the call returns
True for every non-empty list. -/
theorem c2_save_many_amended {α : Type} (eng : Eng) (table : Str)
    (ds : List (List (Str × Option α))) (s : ExecState) (cur : Cursor)
    (hb : eng beginStmt = some cur) (hne : ds ≠ []) :
    save_many eng table ds s =
      (true,
       ⟨s.log ++ (ds.map (fun d => [beginStmt, dc_to_insertion_query table d])).flatten,
        s.commits + ds.countP (fun d => (eng (dc_to_insertion_query table d)).isSome),
        s.rollbacks + ds.countP (fun d => (eng (dc_to_insertion_query table d)).isNone)⟩) := by
  rw [save_many, if_neg]
  · exact save_many_go_spec eng table cur hb ds s
  · simpa using hne

/-- C2 witness: the amended behaviour at a concrete record list and engine. -/
theorem c2_save_many_amended_witness :
    save_many engC2 (S "t") [r1ex, r2ex] initES =
      (true, ⟨[beginStmt, q1ex, beginStmt, q2ex], 1, 1⟩) := by
  have h := c2_save_many_amended (α := Nat) engC2 (S "t") [r1ex, r2ex] initES
    ⟨some 7, 1⟩ rfl (by simp)
  rw [h]
  rfl

/-- C3: the record-type factory receives only field names, and field_type
looks the uppercased field name up in the SQL-type map, so a column named age
declared INTEGER is typed as a string, while the claim's mapping of the
declared SQL type INTEGER yields an integer. -/
theorem c3_field_type_eval :
    (generate_sql [(S "t", [(S "id", S "INTEGER PRIMARY KEY AUTOINCREMENT"),
        (S "age", S "INTEGER")])] []).2 = [(S "t", [S "id", S "age"])] ∧
    make_repo_dataclass [S "id", S "age"] =
      [(S "id", HostType.hInt, none), (S "age", HostType.hStr, none)] ∧
    claim_host_type (S "INTEGER") = HostType.hInt ∧
    HostType.hStr ≠ HostType.hInt :=
  ⟨rfl, rfl, rfl, by decide⟩

/-- C5 counterexample: a data column declared with type text UNIQUE is not in
the recognised set, yet validate succeeds instead of failing on the mismatch,
because the uppercased first token is bypassed as a keyword. -/
theorem c5_validator_counterexample :
    validate [(S "t", [(S "x", S "UNIQUE")])] none = .ok true ∧
    isConstraintName (S "x") = false ∧
    splitWs (S "UNIQUE") = [S "UNIQUE"] ∧
    takePar (upper (S "UNIQUE")) ∉ required_types none :=
  ⟨rfl, rfl, rfl, by decide⟩

/-- C5 amended: for each data column the validator uppercases the first
whitespace-delimited token of the definition and, unless that token is
exactly PRIMARY, FOREIGN, CHECK or UNIQUE (which it skips), strips a
parenthesized suffix and checks membership in the recognised set, failing on
the first mismatch with an error naming the offending table, column and
type. -/
theorem c5_validator_amended (schema : List (Str × List (Str × Str)))
    (types : Option (List Str)) (h : TokensExist schema) :
    validate schema types =
      match first_offense schema (required_types types) with
      | none => .ok true
      | some o => .error (.valueError (invalid_type_msg o.1 o.2.1 o.2.2)) :=
  validate_eq_offense schema types h

/-- C5 witness: a FOO column is rejected with the error naming table, column
and type, and the same column declared DECIMAL(10,2) is accepted. -/
theorem c5_validator_amended_witness :
    validate [(S "t", [(S "a", S "FOO bar"), (S "b", S "DECIMAL(10,2)")])] none =
      .error (.valueError (invalid_type_msg (S "t") (S "a") (S "FOO"))) ∧
    validate [(S "t", [(S "a", S "DECIMAL(10,2)")])] none = .ok true :=
  ⟨(c5_validator_amended _ _ (by decide)).trans (by rfl),
   (c5_validator_amended _ _ (by decide)).trans (by rfl)⟩

/-- C6: the insertion statement is built over exactly the fields whose value
is non-null or whose name is not id, so id is omitted precisely when null and
every other field is kept even when null. -/
theorem c6_insertion_query_fields {α : Type} (d : List (Str × Option α))
    (hnd : (d.map Prod.fst).Nodup) (k : Str) (v : Option α) (hm : (k, v) ∈ d) :
    k ∈ insertionKeys d ↔ (v ≠ none ∨ k ≠ S "id") := by
  unfold insertionKeys
  rw [List.mem_map]
  constructor
  · rintro ⟨⟨k2, v2⟩, hmem, hk⟩
    simp only at hk
    subst hk
    rw [List.mem_filter] at hmem
    obtain ⟨hmem2, hp⟩ := hmem
    have hv : v2 = v := val_eq_of_nodup_keys hnd hmem2 hm
    subst hv
    simpa [Option.isSome_iff_ne_none, bne_iff_ne] using hp
  · intro hvk
    refine ⟨(k, v), List.mem_filter.2 ⟨hm, ?_⟩, rfl⟩
    simpa [Option.isSome_iff_ne_none, bne_iff_ne] using hvk

/-- C6 witness: on a record with null id, null name and set age, id is
omitted while name is kept. -/
theorem c6_insertion_query_fields_witness :
    ((S "id") ∈ insertionKeys [(S "id", (none : Option Nat)), (S "name", none), (S "age", some 5)] ↔
      ((none : Option Nat) ≠ none ∨ S "id" ≠ S "id")) ∧
    ((S "name") ∈ insertionKeys [(S "id", (none : Option Nat)), (S "name", none), (S "age", some 5)] ↔
      ((none : Option Nat) ≠ none ∨ S "name" ≠ S "id")) :=
  ⟨c6_insertion_query_fields _ (by decide) _ _ (by decide),
   c6_insertion_query_fields _ (by decide) _ _ (by decide)⟩

/-- C8: a second create_repository request for an already-cached table name
returns the cached instance unchanged and leaves the cache untouched, no
matter which schema fields or field names the later request supplies. -/
theorem c8_repository_cache_idempotent (st : FactoryState) (t : Str)
    (sf1 sf2 : List (Str × Str)) (f1 f2 : List Str) :
    create_repository (create_repository st t sf1 f1).2 t sf2 f2 =
      ((create_repository st t sf1 f1).1, (create_repository st t sf1 f1).2) := by
  cases h : lookupStr st t with
  | some inst => simp [create_repository, h]
  | none =>
    have h2 := lookupStr_append_self st t
      (⟨t, sf1, make_repo_dataclass f1⟩ : RepoInst) h
    simp [create_repository, h, h2]

/-- C9 counterexample: the handle used by the second repository operation is
not the handle of the first, and the first operation's scope exit has already
closed the connection and cleared the held handle. -/
theorem c9_connection_counterexample :
    (runOp (runOp initConn).2).1 ≠ (runOp initConn).1 ∧
    (runOp initConn).2.closes = 1 ∧ (runOp initConn).2.conn = none :=
  ⟨by decide, rfl, rfl⟩

/-- C9 amended: the manager object is the long-lived singleton but the handle
is not; every operation's scope exit closes and clears the handle, so n
successive operations open n fresh handles and close n times, and operation
n+1 receives the fresh handle numbered n. -/
theorem c9_connection_amended (n : Nat) :
    opsN n initConn = ⟨none, n, n⟩ ∧ (runOp (opsN n initConn)).1 = n := by
  have h : opsN n initConn = ⟨none, n, n⟩ := by
    have h0 := opsN_spec n initConn rfl
    simp only [initConn] at h0 ⊢
    simpa using h0
  exact ⟨h, by rw [h]; rfl⟩

/-- C10: with every data column carrying a first type token, validate raises
if and only if some data column's uppercased first token is none of PRIMARY,
FOREIGN, CHECK, UNIQUE and, stripped of a parenthesized suffix, lies outside
the recognised set; in particular keyword-valued tokens are never reported. -/
theorem c10_validate_bypass_iff (schema : List (Str × List (Str × Str)))
    (types : Option (List Str)) (h : TokensExist schema) :
    (∃ e, validate schema types = .error e) ↔
      ∃ p ∈ schema, ∃ m ∈ p.2, OffendingMember (required_types types) m := by
  rw [validate_eq_offense schema types h]
  constructor
  · rintro ⟨e, he⟩
    by_contra hno
    push_neg at hno
    have hfo : first_offense schema (required_types types) = none :=
      (first_offense_none_iff _ _).2 hno
    rw [hfo] at he
    exact Except.noConfusion he
  · intro hex
    cases hfo : first_offense schema (required_types types) with
    | none =>
      obtain ⟨p, hp, m, hm, hOff⟩ := hex
      exact absurd hOff ((first_offense_none_iff _ _).1 hfo p hp m hm)
    | some o =>
      exact ⟨.valueError (invalid_type_msg o.1 o.2.1 o.2.2), rfl⟩

/-- C10 witness: the characterization at a concrete schema containing a data
column with an unrecognised non-keyword type. -/
theorem c10_validate_bypass_iff_witness :
    (∃ e, validate [(S "t", [(S "x", S "FOO")])] none = .error e) ↔
      ∃ p ∈ [(S "t", [(S "x", S "FOO")])], ∃ m ∈ p.2,
        OffendingMember (required_types none) m :=
  c10_validate_bypass_iff _ _ (by decide)

/- Level 0: string utility lemmas -/

/-- startsW holds of any extension of the pattern. -/
theorem startsW_append (p t : Str) : startsW p (p ++ t) = true := by
  induction p with
  | nil => rfl
  | cons c ps ih => simp [startsW, ih]

/-- A string with a true startsW decomposes as pattern and remainder. -/
theorem eq_append_of_startsW {p s : Str} (h : startsW p s = true) :
    s = p ++ s.drop p.length := by
  induction p generalizing s with
  | nil => simp
  | cons c ps ih =>
    cases s with
    | nil => simp [startsW] at h
    | cons b t =>
      simp only [startsW, Bool.and_eq_true, beq_iff_eq] at h
      obtain ⟨rfl, h2⟩ := h
      simpa using ih h2

/-- Uppercasing distributes over append. -/
theorem upper_append (a b : Str) : upper (a ++ b) = upper a ++ upper b :=
  List.map_append _ a b

/-- Case-insensitive startswith holds of any extension of the pattern. -/
theorem startsWithCI_append (p t : Str) : startsWithCI p (p ++ t) = true := by
  rw [startsWithCI, upper_append]
  exact startsW_append (upper p) (upper t)

/-- takeWhile over an all-satisfying prefix. -/
theorem takeWhile_append_all {p : Char → Bool} {a : Str} (b : Str)
    (h : ∀ c ∈ a, p c = true) : (a ++ b).takeWhile p = a ++ b.takeWhile p := by
  induction a with
  | nil => rfl
  | cons c t ih =>
    rw [List.cons_append, List.takeWhile_cons_of_pos (h c (List.mem_cons_self _ _))]
    simp [ih (fun c hc => h c (List.mem_cons_of_mem _ hc))]

/-- dropWhile over an all-satisfying prefix. -/
theorem dropWhile_append_all {p : Char → Bool} {a : Str} (b : Str)
    (h : ∀ c ∈ a, p c = true) : (a ++ b).dropWhile p = b.dropWhile p := by
  induction a with
  | nil => rfl
  | cons c t ih =>
    rw [List.cons_append, List.dropWhile_cons_of_pos (h c (List.mem_cons_self _ _))]
    exact ih (fun c hc => h c (List.mem_cons_of_mem _ hc))

/-- lstrip of a string with a non-whitespace head. -/
theorem lstrip_cons_false {c : Char} (t : Str) (h : pyIsSpace c = false) :
    lstrip (c :: t) = c :: t := by
  simp [lstrip, List.dropWhile_cons_of_neg, h]

/-- rstrip of a string with a non-whitespace last character. -/
theorem rstrip_append_single {e : Char} (a : Str) (h : pyIsSpace e = false) :
    rstrip (a ++ [e]) = a ++ [e] := by
  simp [rstrip, List.dropWhile_cons_of_neg, h]

/-- strip of a string already free of outer whitespace. -/
theorem strip_eq_self {s : Str} (h1 : lstrip s = s) (h2 : rstrip s = s) :
    strip s = s := by
  rw [strip, h1, h2]

/-- lstrip fixpoint forces a non-whitespace head. -/
theorem head_false_of_lstrip_fix {c : Char} {t : Str} (h : lstrip (c :: t) = c :: t) :
    pyIsSpace c = false := by
  by_contra hc
  rw [Bool.not_eq_false] at hc
  rw [lstrip, List.dropWhile_cons_of_pos hc] at h
  have := congrArg List.length h
  have hle := (List.dropWhile_sublist (l := t) pyIsSpace).length_le
  simp only [List.length_cons] at this
  omega

/-- rstrip fixpoint forces a non-whitespace last character. -/
theorem last_false_of_rstrip_fix {a : Str} {e : Char} (h : rstrip (a ++ [e]) = a ++ [e]) :
    pyIsSpace e = false := by
  by_contra hc
  rw [Bool.not_eq_false] at hc
  rw [rstrip] at h
  rw [List.reverse_append, List.reverse_singleton, List.singleton_append,
    List.dropWhile_cons_of_pos hc] at h
  have := congrArg List.length h
  have hle := (List.dropWhile_sublist (l := a.reverse) pyIsSpace).length_le
  simp only [List.length_reverse, List.length_append, List.length_cons,
    List.length_nil] at this hle
  omega

/-- strip past an all-whitespace left padding. -/
theorem strip_ws_append {w : Str} (s : Str) (h : ∀ c ∈ w, pyIsSpace c = true) :
    strip (w ++ s) = strip s := by
  rw [strip, strip, lstrip, lstrip, dropWhile_append_all s h]

/-- rstrip past an all-whitespace right padding. -/
theorem rstrip_append_ws {w : Str} (s : Str) (h : ∀ c ∈ w, pyIsSpace c = true) :
    rstrip (s ++ w) = rstrip s := by
  rw [rstrip, rstrip, List.reverse_append, dropWhile_append_all s.reverse ?hw]
  case hw => intro c hc; exact h c (by simpa using hc)

/-- strip past an all-whitespace right padding. -/
theorem strip_append_ws {w : Str} (s : Str) (h : ∀ c ∈ w, pyIsSpace c = true) :
    strip (s ++ w) = strip s := by
  rw [strip, strip]
  rw [lstrip, lstrip, List.dropWhile_append]
  by_cases hs : (List.dropWhile pyIsSpace s).isEmpty = true
  · rw [if_pos hs]
    have hs' : List.dropWhile pyIsSpace s = [] := by simpa [List.isEmpty_iff] using hs
    rw [hs']
    have hallw : rstrip (List.dropWhile pyIsSpace w) = [] := by
      have : List.dropWhile pyIsSpace w = [] := by
        rw [List.dropWhile_eq_nil_iff]
        intro c hc; exact h c hc
      simp [this, rstrip]
    rw [hallw, rstrip]
    simp
  · rw [if_neg hs]
    exact rstrip_append_ws _ h

/-- Word characters are not whitespace. -/
theorem wordChar_not_space {c : Char} (h : isWordChar c = true) : pyIsSpace c = false := by
  by_contra hc
  rw [Bool.not_eq_false] at hc
  simp only [pyIsSpace, Bool.or_eq_true, beq_iff_eq] at hc
  rcases hc with ((((rfl | rfl) | rfl) | rfl) | rfl) | rfl <;> exact absurd h (by decide)

/-- Word characters are benign clause characters. -/
theorem wordChar_good {c : Char} (h : isWordChar c = true) : goodChar c = true := by
  by_contra hc
  rw [Bool.not_eq_true] at hc
  simp only [goodChar, Bool.and_eq_false_iff, bne_eq_false_iff_eq] at hc
  rcases hc with ((((rfl | rfl) | rfl) | rfl) | rfl) | rfl <;> exact absurd h (by decide)

/-- Word characters are not parentheses, commas or semicolons. -/
theorem wordChar_not_special {c : Char} (h : isWordChar c = true) :
    c ≠ '(' ∧ c ≠ ')' ∧ c ≠ ',' ∧ c ≠ ';' := by
  refine ⟨?_, ?_, ?_, ?_⟩ <;> rintro rfl <;> exact absurd h (by decide)

/- Level 1: top-level comma splitting -/

/-- topChunksGo never returns an empty chunk list. -/
theorem topChunksGo_ne_nil (s : Str) (d : Int) : topChunksGo s d ≠ [] := by
  induction s generalizing d with
  | nil => simp [topChunksGo]
  | cons c rest ih =>
    rw [topChunksGo]
    by_cases hsep : c = ',' ∧ d = 0
    · simp [hsep]
    · rw [if_neg hsep]
      cases htc : topChunksGo rest (depthStep d c) with
      | nil => exact absurd htc (ih _)
      | cons ch chs => simp

/-- stripChunks of a cons with a nonempty tail strips the head and recurses. -/
theorem stripChunks_cons_of_ne (ch : Str) {chs : List Str} (h : chs ≠ []) :
    stripChunks (ch :: chs) = strip ch :: stripChunks chs := by
  cases chs with
  | nil => exact absurd rfl h
  | cons ch2 chs2 => rfl

/-- mapHead with the identity function. -/
theorem mapHead_id (l : List Str) : mapHead (fun ch => ch) l = l := by
  cases l <;> rfl

/-- mapHead preserves nonemptiness. -/
theorem mapHead_ne_nil (f : Str → Str) {l : List Str} (h : l ≠ []) :
    mapHead f l ≠ [] := by
  cases l with
  | nil => exact absurd rfl h
  | cons ch chs => simp [mapHead]

/-- The split_columns loop equals chunking at top-level commas followed by the
strip-and-drop-empty-tail cleanup, for any starting depth and partial member. -/
theorem split_columns_go_eq (s : Str) : ∀ (d : Int) (cur : Str),
    split_columns_go s d cur =
      stripChunks (mapHead (fun ch => cur ++ ch) (topChunksGo s d)) := by
  induction s with
  | nil =>
    intro d cur
    simp [split_columns_go, topChunksGo, mapHead, stripChunks]
  | cons c rest ih =>
    intro d cur
    rw [split_columns_go, topChunksGo]
    by_cases hsep : c = ',' ∧ d = 0
    · rw [if_pos hsep, if_pos hsep, ih d []]
      have hne := topChunksGo_ne_nil rest d
      cases htc : topChunksGo rest d with
      | nil => exact absurd htc hne
      | cons ch chs =>
        rw [mapHead, mapHead]
        simp [stripChunks]
    · rw [if_neg hsep, if_neg hsep]
      rw [ih (depthStep d c) (cur ++ [c])]
      have hne := topChunksGo_ne_nil rest (depthStep d c)
      cases htc : topChunksGo rest (depthStep d c) with
      | nil => exact absurd htc hne
      | cons ch chs =>
        rw [mapHead, mapHead]
        simp

/-- split_columns divides its input at exactly the top-level commas. -/
theorem split_columns_eq_chunks (s : Str) :
    split_columns s = stripChunks (topChunks s) := by
  rw [split_columns, topChunks, split_columns_go_eq s 0 []]
  have hne := topChunksGo_ne_nil s 0
  cases htc : topChunksGo s 0 with
  | nil => exact absurd htc hne
  | cons ch chs => rw [mapHead]; simp

/-- depthStep from an arbitrary starting depth shifts by its effect at zero. -/
theorem depthStep_shift (d : Int) (c : Char) : depthStep d c = d + depthStep 0 c := by
  rw [depthStep, depthStep]
  by_cases h1 : c = '(' <;> by_cases h2 : c = ')' <;> simp [h1, h2] <;> omega

/-- Scanning depth after a string equals the start plus the string's balance. -/
theorem foldl_depthStep_eq (u : Str) : ∀ d : Int,
    u.foldl depthStep d = d + balance u := by
  induction u with
  | nil => intro d; simp [balance]
  | cons c u' ih =>
    intro d
    have hb : balance (c :: u') = depthStep 0 c + balance u' := by
      rw [balance, List.foldl_cons, ih (depthStep 0 c)]
    rw [List.foldl_cons, ih (depthStep d c), hb, depthStep_shift]
    omega

/-- Chunking of an appended string whose prefix has no top-level comma. -/
theorem topChunksGo_append {u : Str} (v : Str) : ∀ {d : Int},
    sepFree u d = true →
    topChunksGo (u ++ v) d =
      mapHead (fun ch => u ++ ch) (topChunksGo v (u.foldl depthStep d)) := by
  induction u with
  | nil =>
    intro d _
    simp [mapHead_id]
  | cons c u' ih =>
    intro d h
    rw [sepFree] at h
    by_cases hsep : c = ',' ∧ d = 0
    · rw [if_pos hsep] at h; cases h
    · rw [if_neg hsep] at h
      rw [List.cons_append, topChunksGo, if_neg hsep, ih h]
      have hne := topChunksGo_ne_nil v ((c :: u').foldl depthStep d)
      rw [List.foldl_cons] at hne ⊢
      cases htc : topChunksGo v (u'.foldl depthStep (depthStep d c)) with
      | nil => exact absurd htc hne
      | cons ch chs => rw [mapHead, mapHead]; simp

/-- A string with no top-level comma is a single chunk. -/
theorem topChunksGo_single {u : Str} {d : Int} (h : sepFree u d = true) :
    topChunksGo u d = [u] := by
  have := topChunksGo_append (u := u) [] (d := d) h
  rw [List.append_nil] at this
  rw [this, topChunksGo, mapHead, List.append_nil]

/- Level 2: split_columns on a generated table body -/

/-- intercalate over at least two pieces. -/
theorem intercalate_cons2 (sep x y : Str) (ys : List Str) :
    List.intercalate sep (x :: y :: ys) = x ++ sep ++ List.intercalate sep (y :: ys) := by
  simp [List.intercalate, List.intersperse]

/-- The member separator starts with a comma followed by the padding. -/
theorem sep_eq : S ",\n    " = ',' :: S "\n    " := rfl

/-- Chunking a joined member list: each clause balanced with no top-level
comma becomes one chunk, with the padding absorbed by stripping. -/
theorem chunks_joined (cls : List Str)
    (h : ∀ cl ∈ cls, balance cl = 0 ∧ sepFree cl 0 = true ∧ strip cl ≠ []) :
    stripChunks (mapHead (fun ch => S "\n    " ++ ch)
      (topChunksGo (List.intercalate (S ",\n    ") cls ++ S "\n") 0)) =
      cls.map strip := by
  induction cls with
  | nil => decide
  | cons c cls' ih =>
    obtain ⟨hbal, hsf, hst⟩ := h c (List.mem_cons_self _ _)
    have hpadsf : sepFree (S "\n    ") (0 : Int) = true := by decide
    have hpadfold : (S "\n    ").foldl depthStep (0 : Int) = 0 := by decide
    have hpadws : ∀ x ∈ S "\n    ", pyIsSpace x = true := by decide
    have hnlws : ∀ x ∈ S "\n", pyIsSpace x = true := by decide
    cases cls' with
    | nil =>
      show stripChunks (mapHead _ (topChunksGo (List.intercalate (S ",\n    ") [c] ++ S "\n") 0)) = _
      rw [show List.intercalate (S ",\n    ") [c] = c by simp [List.intercalate]]
      rw [topChunksGo_append _ hsf, foldl_depthStep_eq, hbal]
      rw [show (0 : Int) + 0 = 0 by omega]
      rw [topChunksGo_single (by decide : sepFree (S "\n") (0 : Int) = true)]
      rw [mapHead, mapHead]
      rw [stripChunks]
      rw [strip_ws_append _ hpadws, strip_append_ws _ hnlws]
      simp [hst]
    | cons c2 cls'' =>
      rw [intercalate_cons2]
      have hshape :
          (c ++ S ",\n    " ++ List.intercalate (S ",\n    ") (c2 :: cls'')) ++ S "\n" =
          c ++ (',' :: (S "\n    " ++ (List.intercalate (S ",\n    ") (c2 :: cls'') ++ S "\n"))) := by
        rw [sep_eq]
        simp [List.append_assoc]
      rw [hshape]
      rw [topChunksGo_append _ hsf, foldl_depthStep_eq, hbal]
      rw [show (0 : Int) + 0 = 0 by omega]
      rw [show topChunksGo (',' :: (S "\n    " ++ (List.intercalate (S ",\n    ") (c2 :: cls'') ++ S "\n"))) 0 =
            [] :: topChunksGo (S "\n    " ++ (List.intercalate (S ",\n    ") (c2 :: cls'') ++ S "\n")) 0 by
        rw [topChunksGo, if_pos ⟨rfl, rfl⟩]]
      rw [topChunksGo_append _ hpadsf, hpadfold]
      rw [mapHead, mapHead]
      have hne : mapHead (fun ch => S "\n    " ++ ch)
          (topChunksGo (List.intercalate (S ",\n    ") (c2 :: cls'') ++ S "\n") 0) ≠ [] :=
        mapHead_ne_nil _ (topChunksGo_ne_nil _ _)
      rw [stripChunks_cons_of_ne _ hne]
      rw [ih (fun cl hcl => h cl (List.mem_cons_of_mem _ hcl))]
      rw [List.append_nil, strip_ws_append _ hpadws]
      rfl

/-- split_columns of a generated table body recovers the stripped clauses. -/
theorem split_columns_body (cls : List Str)
    (h : ∀ cl ∈ cls, balance cl = 0 ∧ sepFree cl 0 = true ∧ strip cl ≠ []) :
    split_columns (S "\n    " ++ (List.intercalate (S ",\n    ") cls ++ S "\n")) =
      cls.map strip := by
  rw [split_columns, split_columns_go_eq _ 0 []]
  have hpadsf : sepFree (S "\n    ") (0 : Int) = true := by decide
  have hpadfold : (S "\n    ").foldl depthStep (0 : Int) = 0 := by decide
  rw [topChunksGo_append _ hpadsf, hpadfold]
  have hne : mapHead (fun ch => S "\n    " ++ ch)
      (topChunksGo (List.intercalate (S ",\n    ") cls ++ S "\n") 0) ≠ [] :=
    mapHead_ne_nil _ (topChunksGo_ne_nil _ _)
  cases htc : mapHead (fun ch => S "\n    " ++ ch)
      (topChunksGo (List.intercalate (S ",\n    ") cls ++ S "\n") 0) with
  | nil => exact absurd htc hne
  | cons ch chs =>
    rw [mapHead]
    have := chunks_joined cls h
    rw [htc] at this
    simpa using this

/- Level 3: strip idempotence, decompositions, and reparse of one member -/

/-- The head surviving a dropWhile fails the predicate. -/
theorem dropWhile_head_false {p : Char → Bool} {l : List Char} {c : Char} {t : List Char}
    (h : List.dropWhile p l = c :: t) : p c = false := by
  induction l with
  | nil => cases h
  | cons b r ih =>
    by_cases hb : p b = true
    · rw [List.dropWhile_cons_of_pos hb] at h
      exact ih h
    · rw [List.dropWhile_cons_of_neg hb] at h
      injection h with e1 _
      subst e1
      simpa using hb

/-- lstrip is idempotent. -/
theorem lstrip_idem (s : Str) : lstrip (lstrip s) = lstrip s := by
  cases h : lstrip s with
  | nil => rfl
  | cons c t =>
    have hc : pyIsSpace c = false := dropWhile_head_false (by rw [lstrip] at h; exact h)
    exact lstrip_cons_false t hc

/-- rstrip is idempotent. -/
theorem rstrip_idem (s : Str) : rstrip (rstrip s) = rstrip s := by
  rw [rstrip, rstrip, List.reverse_reverse]
  have h0 : List.dropWhile pyIsSpace (List.dropWhile pyIsSpace s.reverse) =
      List.dropWhile pyIsSpace s.reverse := by
    cases h : List.dropWhile pyIsSpace s.reverse with
    | nil => rfl
    | cons c t =>
      have hc : pyIsSpace c = false := dropWhile_head_false h
      rw [List.dropWhile_cons_of_neg (by simp [hc])]
  rw [h0]

/-- rstrip yields a prefix of its input. -/
theorem rstrip_decomp (s : Str) : ∃ u, s = rstrip s ++ u := by
  obtain ⟨u, hu⟩ := (List.dropWhile_suffix (l := s.reverse) pyIsSpace)
  refine ⟨u.reverse, ?_⟩
  conv_lhs => rw [← List.reverse_reverse s, ← hu]
  rw [List.reverse_append]
  rfl

/-- lstrip and rstrip commute in the strip composition. -/
theorem lstrip_rstrip_lstrip (s : Str) : lstrip (rstrip (lstrip s)) = rstrip (lstrip s) := by
  cases h : rstrip (lstrip s) with
  | nil => rfl
  | cons c t =>
    obtain ⟨u, hu⟩ := rstrip_decomp (lstrip s)
    rw [h] at hu
    have h2 : lstrip (lstrip s) = lstrip s := lstrip_idem s
    rw [hu, List.cons_append] at h2
    have hc : pyIsSpace c = false := head_false_of_lstrip_fix h2
    exact lstrip_cons_false t hc

/-- strip is idempotent. -/
theorem strip_idem (s : Str) : strip (strip s) = strip s := by
  rw [strip, strip, lstrip_rstrip_lstrip, rstrip_idem]

/-- rstrip of a stripped string is itself. -/
theorem rstrip_strip (s : Str) : rstrip (strip s) = strip s := by
  rw [strip, rstrip_idem]

/-- lstrip of a stripped string is itself. -/
theorem lstrip_strip (s : Str) : lstrip (strip s) = strip s := by
  rw [strip, lstrip_rstrip_lstrip]

/-- strip of a string of non-whitespace characters. -/
theorem strip_eq_self_of_all {s : Str} (h : ∀ c ∈ s, pyIsSpace c = false) :
    strip s = s := by
  cases s with
  | nil => rfl
  | cons c t =>
    refine strip_eq_self (lstrip_cons_false t (h c (List.mem_cons_self _ _))) ?_
    rcases List.eq_nil_or_concat (c :: t) with h1 | ⟨a, e, h2⟩
    · cases h1
    · rw [List.concat_eq_append] at h2
      rw [h2]
      exact rstrip_append_single a (h e (h2 ▸ (by simp)))

/-- A string with a non-whitespace head strips to something nonempty. -/
theorem strip_ne_nil_of_head {c : Char} (t : Str) (h : pyIsSpace c = false) :
    strip (c :: t) ≠ [] := by
  rw [strip, lstrip_cons_false t h, rstrip]
  intro hcon
  have h2 : List.dropWhile pyIsSpace (c :: t).reverse = [] := by
    have := congrArg List.reverse hcon
    simpa using this
  rw [List.dropWhile_eq_nil_iff] at h2
  exact absurd (h2 c (by simp)) (by simp [h])

/-- rstrip distributes over an append by cases on the right part. -/
theorem rstrip_append_str (a y : Str) :
    rstrip (a ++ y) = if rstrip y = [] then rstrip a else a ++ rstrip y := by
  rw [rstrip, List.reverse_append, List.dropWhile_append]
  by_cases h : (List.dropWhile pyIsSpace y.reverse).isEmpty = true
  · have h2 : rstrip y = [] := by
      rw [rstrip]
      simp only [List.isEmpty_iff] at h
      simp [h]
    rw [if_pos h, if_pos h2, rstrip]
  · have h2 : ¬ rstrip y = [] := by
      intro hcon
      rw [rstrip] at hcon
      have := congrArg List.reverse hcon
      simp only [List.reverse_reverse, List.reverse_nil] at this
      simp [this] at h
    rw [if_neg h, if_neg h2, List.reverse_append, List.reverse_reverse, rstrip]

/-- startsW is false when the heads differ. -/
theorem startsW_head_false {a b : Char} (p s : Str) (h : a ≠ b) :
    startsW (a :: p) (b :: s) = false := by
  simp [startsW, h]

/-- Uppercasing a cons. -/
theorem upper_cons (c : Char) (s : Str) : upper (c :: s) = c.toUpper :: upper s := rfl

/-- Members of takeWhile satisfy the predicate. -/
theorem mem_takeWhile_pred (p : Char → Bool) {s : Str} {c : Char}
    (h : c ∈ s.takeWhile p) : p c = true := by
  induction s with
  | nil => cases h
  | cons b t ih =>
    by_cases hb : p b = true
    · rw [List.takeWhile_cons_of_pos hb] at h
      rcases List.mem_cons.1 h with rfl | h2
      · exact hb
      · exact ih h2
    · rw [List.takeWhile_cons_of_neg (by simpa using hb)] at h
      cases h

/- Level 4: clause facts and reparse of data members -/

/-- Balance adds over append. -/
theorem balance_append (a b : Str) : balance (a ++ b) = balance a + balance b := by
  rw [balance, balance, List.foldl_append, foldl_depthStep_eq]

/-- A paren-free string has zero balance. -/
theorem balance_no_paren {s : Str} (h : ∀ c ∈ s, c ≠ '(' ∧ c ≠ ')') : balance s = 0 := by
  induction s with
  | nil => rfl
  | cons c t ih =>
    have hc := h c (List.mem_cons_self _ _)
    have hb : balance (c :: t) = depthStep 0 c + balance t := by
      rw [balance, List.foldl_cons, foldl_depthStep_eq]
    rw [hb, ih (fun x hx => h x (List.mem_cons_of_mem _ hx)), depthStep,
      if_neg hc.1, if_neg hc.2]
    omega

/-- A comma-free string raises no top-level separator at any depth. -/
theorem sepFree_no_comma {s : Str} (h : ∀ c ∈ s, c ≠ ',') : ∀ d, sepFree s d = true := by
  induction s with
  | nil => intro d; rfl
  | cons c t ih =>
    intro d
    rw [sepFree, if_neg (fun hand => (h c (List.mem_cons_self _ _)) hand.1)]
    exact ih (fun x hx => h x (List.mem_cons_of_mem _ hx)) _

/-- sepFree composes over append. -/
theorem sepFree_append {a b : Str} {d : Int} (ha : sepFree a d = true)
    (hb : sepFree b (d + balance a) = true) : sepFree (a ++ b) d = true := by
  induction a generalizing d with
  | nil =>
    simpa [balance] using hb
  | cons c t ih =>
    rw [List.cons_append, sepFree]
    rw [sepFree] at ha
    by_cases hsep : c = ',' ∧ d = 0
    · rw [if_pos hsep] at ha; cases ha
    · rw [if_neg hsep] at ha ⊢
      refine ih ha ?_
      have hb2 : balance (c :: t) = depthStep 0 c + balance t := by
        rw [balance, List.foldl_cons, foldl_depthStep_eq]
      rw [hb2] at hb
      rw [depthStep_shift]
      have he : d + depthStep 0 c + balance t = d + (depthStep 0 c + balance t) := by omega
      rw [he]
      exact hb

/-- Word-character strings contain no parens, commas or whitespace. -/
theorem wordStr_facts {n : Str} (h : ∀ c ∈ n, isWordChar c = true) :
    (∀ c ∈ n, c ≠ '(' ∧ c ≠ ')') ∧ (∀ c ∈ n, c ≠ ',') ∧
    (∀ c ∈ n, pyIsSpace c = false) ∧ (∀ c ∈ n, (!pyIsSpace c) = true) := by
  refine ⟨fun c hc => ?_, fun c hc => ?_, fun c hc => ?_, fun c hc => ?_⟩
  · have := wordChar_not_special (h c hc); exact ⟨this.1, this.2.1⟩
  · exact (wordChar_not_special (h c hc)).2.2.1
  · exact wordChar_not_space (h c hc)
  · simp [wordChar_not_space (h c hc)]

/-- The rendered clause of a well-formed data member is already stripped. -/
theorem strip_render_data {n d : Str} (h : GoodData n d) :
    strip (renderMember (n, d)) = renderMember (n, d) := by
  obtain ⟨⟨hne, hword⟩, _, hdne, _, hdl, hdr, _⟩ := h
  cases n with
  | nil => exact absurd rfl hne
  | cons hn tn =>
    rcases List.eq_nil_or_concat d with rfl | ⟨a, e, hd⟩
    · exact absurd rfl hdne
    · rw [List.concat_eq_append] at hd
      refine strip_eq_self ?_ ?_
      · rw [renderMember, List.cons_append]
        exact lstrip_cons_false _ (wordChar_not_space (hword hn (List.mem_cons_self _ _)))
      · have he : pyIsSpace e = false := by
          refine last_false_of_rstrip_fix (a := a) ?_
          rw [← hd]
          exact hdr
        rw [renderMember, hd]
        rw [show (hn :: tn) ++ ' ' :: (a ++ [e]) = ((hn :: tn) ++ ' ' :: a) ++ [e] by simp]
        exact rstrip_append_single _ he

/-- Well-formed data members render to balanced clauses without top-level
commas that survive stripping. -/
theorem data_clause_good {n d : Str} (h : GoodData n d) :
    balance (renderMember (n, d)) = 0 ∧ sepFree (renderMember (n, d)) 0 = true ∧
    strip (renderMember (n, d)) ≠ [] := by
  have hsr := strip_render_data h
  obtain ⟨⟨hne, hword⟩, _, hdne, _, hdl, hdr, hdbal, hdsf, _⟩ := h
  obtain ⟨hnp, hnc, hnw, _⟩ := wordStr_facts hword
  have hb : balance (renderMember (n, d)) = 0 := by
    rw [renderMember, show n ++ ' ' :: d = n ++ ([' '] ++ d) by simp, balance_append,
      balance_append, balance_no_paren hnp, hdbal]
    decide
  have hsf : sepFree (renderMember (n, d)) 0 = true := by
    rw [renderMember, show n ++ ' ' :: d = n ++ ([' '] ++ d) by simp]
    refine sepFree_append (sepFree_no_comma hnc 0) ?_
    rw [balance_no_paren hnp]
    refine sepFree_append (by decide) ?_
    simpa using hdsf
  refine ⟨hb, hsf, ?_⟩
  rw [hsr, renderMember]
  cases n with
  | nil => exact absurd rfl hne
  | cons hn tn => simp

/-- Reparsing a well-formed data member recovers it exactly. -/
theorem parse_member_data {n d : Str} (h : GoodData n d) :
    parse_member (strip (renderMember (n, d))) = .ok (n, d) := by
  have hstrip := strip_render_data h
  obtain ⟨⟨hne, hword⟩, _, hdne, _, hdl, hdr, _, _, hFK, hPK⟩ := h
  obtain ⟨_, _, hnw, hnbw⟩ := wordStr_facts hword
  rw [hstrip, parse_member, hFK, hPK, if_neg (by simp)]
  cases n with
  | nil => exact absurd rfl hne
  | cons hn tn =>
    have hwhn : pyIsSpace hn = false := wordChar_not_space (hword hn (List.mem_cons_self _ _))
    have hcons : renderMember (hn :: tn, d) = hn :: (tn ++ ' ' :: d) := by
      rw [renderMember, List.cons_append]
    rw [hcons]
    have hlid : lstrip (hn :: (tn ++ ' ' :: d)) = hn :: (tn ++ ' ' :: d) :=
      lstrip_cons_false _ hwhn
    have htok : List.takeWhile (fun c => !pyIsSpace c) (hn :: (tn ++ ' ' :: d)) = hn :: tn := by
      rw [← List.cons_append, takeWhile_append_all _ hnbw,
        List.takeWhile_cons_of_neg (by decide), List.append_nil]
    have hdrop : List.drop (hn :: tn).length (hn :: (tn ++ ' ' :: d)) = ' ' :: d := by
      rw [← List.cons_append]
      exact List.drop_left _ _
    have hrest : List.dropWhile pyIsSpace (' ' :: d) = d := by
      rw [List.dropWhile_cons_of_pos (by decide)]
      exact hdl
    have hsw : splitWs1 (hn :: (tn ++ ' ' :: d)) = [hn :: tn, d] := by
      simp only [splitWs1, hlid, htok, hdrop, hrest]
      rw [if_neg hdne]
    rw [parse_column, hsw]
    show Except.ok (strip (hn :: tn), strip d) = Except.ok (hn :: tn, d)
    rw [strip_eq_self_of_all hnw, strip_eq_self hdl hdr]

/- Level 5: reparse of constraint members -/

/-- A constraint-like name starts with one of the four keywords. -/
theorem isConstraintName_cases {n : Str} (h : isConstraintName n = true) :
    startsW (S "PRIMARY KEY") n = true ∨ startsW (S "UNIQUE") n = true ∨
    startsW (S "CHECK") n = true ∨ startsW (S "FOREIGN KEY") n = true := by
  simpa [isConstraintName, startsWithAny, constraint_keywords] using h

/-- Any extension of a constraint keyword is a constraint name. -/
theorem isConstraintName_append {kw : Str} (rest : Str) (hkw : kw ∈ constraint_keywords) :
    isConstraintName (kw ++ rest) = true := by
  rw [isConstraintName, startsWithAny, List.any_eq_true]
  exact ⟨kw, hkw, startsW_append kw rest⟩

/-- Case-insensitive startswith is false when the uppercased heads differ. -/
theorem startsWithCI_head_false {a : Char} (p : Str) {b : Char} (s : Str)
    (h : a.toUpper ≠ b.toUpper) : startsWithCI (a :: p) (b :: s) = false := by
  rw [startsWithCI, upper_cons, upper_cons]
  exact startsW_head_false _ _ h

/-- Stripping the clause of a keyword-headed member either leaves just the
keyword or the keyword followed by a nonempty remainder. -/
theorem strip_render_kw (kw : Str) {n d : Str} (hkwne : kw ≠ [])
    (hlkw : lstrip kw = kw) (hrkw : rstrip kw = kw) (hn : startsW kw n = true) :
    strip (renderMember (n, d)) = kw ∨
    ∃ z, z ≠ [] ∧ strip (renderMember (n, d)) = kw ++ z := by
  have hdec := eq_append_of_startsW hn
  have hshape : renderMember (n, d) = kw ++ (n.drop kw.length ++ ' ' :: d) := by
    rw [renderMember]
    conv_lhs => rw [hdec]
    simp
  have hlid : lstrip (renderMember (n, d)) = renderMember (n, d) := by
    rw [hshape]
    cases hkw : kw with
    | nil => exact absurd hkw hkwne
    | cons c0 kwr =>
      have hc0 : pyIsSpace c0 = false := head_false_of_lstrip_fix (hkw ▸ hlkw)
      rw [List.cons_append]
      exact lstrip_cons_false _ hc0
  have hstrip : strip (renderMember (n, d)) =
      rstrip (kw ++ (n.drop kw.length ++ ' ' :: d)) := by
    rw [strip, hlid, hshape]
  rw [rstrip_append_str] at hstrip
  by_cases hz : rstrip (n.drop kw.length ++ ' ' :: d) = []
  · left
    rw [if_pos hz, hrkw] at hstrip
    exact hstrip
  · right
    rw [if_neg hz] at hstrip
    exact ⟨_, hz, hstrip⟩

/-- Reparsing a FOREIGN KEY constraint yields a constraint-named member. -/
theorem parse_member_FK {n d : Str} (hn : startsW (S "FOREIGN KEY") n = true)
    (hrp : ')' ∈ strip (renderMember (n, d))) :
    ∃ k v, parse_member (strip (renderMember (n, d))) = .ok (k, v) ∧
      isConstraintName k = true := by
  rcases strip_render_kw (S "FOREIGN KEY") (by decide) (by decide) (by decide) hn with
    hcol | ⟨z, hzne, hcol⟩
  · rw [hcol] at hrp
    exact absurd hrp (by decide)
  · rw [hcol] at hrp ⊢
    have hzrp : ')' ∈ z := by
      rcases List.mem_append.1 hrp with h1 | h1
      · exact absurd h1 (by decide)
      · exact h1
    obtain ⟨e, w, hdz⟩ : ∃ e w, List.dropWhile (fun x => x != ')') z = e :: w := by
      cases hdz0 : List.dropWhile (fun x => x != ')') z with
      | nil =>
        have hz2 := List.takeWhile_append_dropWhile (fun x => x != ')') z
        rw [hdz0, List.append_nil] at hz2
        have hm : (')' : Char) ∈ List.takeWhile (fun x => x != ')') z := by
          rw [hz2]; exact hzrp
        have := mem_takeWhile_pred (fun y => y != ')') hm
        simp at this
      | cons e w => exact ⟨e, w, rfl⟩
    have he : e = ')' := by
      have := dropWhile_head_false hdz
      simpa using this
    subst he
    have htp : ∀ x ∈ List.takeWhile (fun x => x != ')') z, (x != ')') = true :=
      fun x hx => mem_takeWhile_pred (fun y => y != ')') hx
    have hzdec : z = List.takeWhile (fun x => x != ')') z ++ ')' :: w := by
      conv_lhs => rw [← List.takeWhile_append_dropWhile (fun x => x != ')') z]
      rw [hdz]
    have htw : List.takeWhile (fun x => x != ')') (S "FOREIGN KEY" ++ z) =
        S "FOREIGN KEY" ++ List.takeWhile (fun x => x != ')') z :=
      takeWhile_append_all _ (by decide)
    obtain ⟨T, hT⟩ : ∃ T, List.takeWhile (fun x => x != ')') z = T := ⟨_, rfl⟩
    rw [hT] at htp hzdec htw
    have hio : indexOfRp (S "FOREIGN KEY" ++ z) = some (S "FOREIGN KEY" ++ T).length := by
      rw [indexOfRp, if_pos hrp, htw]
    have htake : List.take ((S "FOREIGN KEY" ++ T).length + 1) (S "FOREIGN KEY" ++ z) =
        (S "FOREIGN KEY" ++ T) ++ [')'] := by
      rw [hzdec]
      rw [show S "FOREIGN KEY" ++ (T ++ ')' :: w) = (S "FOREIGN KEY" ++ T) ++ ')' :: w by simp]
      rw [List.take_append 1]
      rfl
    have hkstrip : strip ((S "FOREIGN KEY" ++ T) ++ [')']) =
        (S "FOREIGN KEY" ++ T) ++ [')'] := by
      refine strip_eq_self ?_ (rstrip_append_single _ (by decide))
      rw [show ((S "FOREIGN KEY" ++ T) ++ [')'] : Str) =
        'F' :: ((S "OREIGN KEY" ++ T) ++ [')']) by
          rw [show (S "FOREIGN KEY" : Str) = 'F' :: S "OREIGN KEY" from rfl]
          simp]
      exact lstrip_cons_false _ (by decide)
    have hss : strip (S "FOREIGN KEY" ++ z) = S "FOREIGN KEY" ++ z := by
      have h0 := strip_idem (renderMember (n, d))
      rwa [hcol] at h0
    have hciFK : startsWithCI (S "FOREIGN KEY") (S "FOREIGN KEY" ++ z) = true :=
      startsWithCI_append _ _
    refine ⟨(S "FOREIGN KEY" ++ T) ++ [')'],
      strip (List.drop ((S "FOREIGN KEY" ++ T).length + 1) (S "FOREIGN KEY" ++ z)),
      ?_, ?_⟩
    · rw [parse_member, hciFK, if_pos (by simp)]
      simp only [parse_constraint, hss, hciFK, if_true, hio]
      rw [htake, hkstrip]
    · rw [show ((S "FOREIGN KEY" ++ T) ++ [')'] : Str) =
        S "FOREIGN KEY" ++ (T ++ [')']) by simp]
      exact isConstraintName_append _ (by decide)

/-- startsW is false when the pattern head differs from the subject head. -/
theorem startsW_cons_append_false (a : Char) (p : Str) (b : Char) (q t : Str)
    (h : a ≠ b) : startsW (a :: p) ((b :: q) ++ t) = false := by
  rw [List.cons_append]
  exact startsW_head_false _ _ h

/-- Case-insensitive startswith is false when the uppercased heads differ. -/
theorem startsWithCI_cons_append_false (a : Char) (p : Str) (b : Char) (q t : Str)
    (h : a.toUpper ≠ b.toUpper) : startsWithCI (a :: p) ((b :: q) ++ t) = false := by
  rw [List.cons_append]
  exact startsWithCI_head_false _ _ h

/-- Reparsing a PRIMARY KEY constraint yields the PRIMARY KEY member. -/
theorem parse_member_PK {n d : Str} (hn : startsW (S "PRIMARY KEY") n = true)
    (hrp : ')' ∈ strip (renderMember (n, d))) :
    ∃ k v, parse_member (strip (renderMember (n, d))) = .ok (k, v) ∧
      isConstraintName k = true := by
  rcases strip_render_kw (S "PRIMARY KEY") (by decide) (by decide) (by decide) hn with
    hcol | ⟨z, hzne, hcol⟩
  · rw [hcol] at hrp
    exact absurd hrp (by decide)
  · rw [hcol] at hrp ⊢
    have hciFK : startsWithCI (S "FOREIGN KEY") (S "PRIMARY KEY" ++ z) = false :=
      startsWithCI_cons_append_false 'F' (S "OREIGN KEY") 'P' (S "RIMARY KEY") z (by decide)
    have hciPK : startsWithCI (S "PRIMARY KEY") (S "PRIMARY KEY" ++ z) = true :=
      startsWithCI_append _ _
    have hss : strip (S "PRIMARY KEY" ++ z) = S "PRIMARY KEY" ++ z := by
      have h0 := strip_idem (renderMember (n, d))
      rwa [hcol] at h0
    refine ⟨S "PRIMARY KEY",
      strip (List.drop (S "PRIMARY KEY").length (S "PRIMARY KEY" ++ z)), ?_, by decide⟩
    rw [parse_member, hciFK, hciPK, if_pos (by simp)]
    simp only [parse_constraint, hss, hciFK, hciPK, Bool.false_eq_true, if_false,
      if_true, if_pos hrp]

/-- Reparsing a CHECK-like or UNIQUE-like constraint yields a member whose
name extends the same keyword. -/
theorem parse_member_other (kw : Str) {n d : Str} (hkwne : kw ≠ [])
    (hkwnws : ∀ c ∈ kw, pyIsSpace c = false)
    (hkwmem : kw ∈ constraint_keywords)
    (hn : startsW kw n = true)
    (hFKc : ∀ z : Str, startsWithCI (S "FOREIGN KEY") (kw ++ z) = false)
    (hPKc : ∀ z : Str, startsWithCI (S "PRIMARY KEY") (kw ++ z) = false)
    (hws : (strip (renderMember (n, d))).any pyIsSpace = true) :
    ∃ k v, parse_member (strip (renderMember (n, d))) = .ok (k, v) ∧
      isConstraintName k = true := by
  have hlkw : lstrip kw = kw := by
    cases hk : kw with
    | nil => rfl
    | cons c0 r =>
      exact lstrip_cons_false _ (hkwnws c0 (by rw [hk]; exact List.mem_cons_self _ _))
  have hrkw : rstrip kw = kw := by
    rcases List.eq_nil_or_concat kw with h1 | ⟨a, e, h2⟩
    · rw [h1]; rfl
    · rw [List.concat_eq_append] at h2
      rw [h2]
      exact rstrip_append_single a (hkwnws e (by rw [h2]; simp))
  rcases strip_render_kw kw hkwne hlkw hrkw hn with hcol | ⟨z, hzne, hcol⟩
  · rw [hcol, List.any_eq_true] at hws
    obtain ⟨x, hx, hxs⟩ := hws
    exact absurd hxs (by simp [hkwnws x hx])
  · rw [hcol] at hws ⊢
    have hlcol : lstrip (kw ++ z) = kw ++ z := by
      have h0 := lstrip_strip (renderMember (n, d))
      rwa [hcol] at h0
    have hrcol : rstrip (kw ++ z) = kw ++ z := by
      have h0 := rstrip_strip (renderMember (n, d))
      rwa [hcol] at h0
    have hsplit := List.takeWhile_append_dropWhile (fun c => !pyIsSpace c) (kw ++ z)
    have htka : ∀ c ∈ List.takeWhile (fun c => !pyIsSpace c) (kw ++ z), pyIsSpace c = false := by
      intro c hc
      have := mem_takeWhile_pred (fun c => !pyIsSpace c) hc
      simpa using this
    have htok : List.takeWhile (fun c => !pyIsSpace c) (kw ++ z) =
        kw ++ List.takeWhile (fun c => !pyIsSpace c) z :=
      takeWhile_append_all _ (fun c hc => by simp [hkwnws c hc])
    obtain ⟨TK, hTK⟩ : ∃ TK, List.takeWhile (fun c => !pyIsSpace c) (kw ++ z) = TK := ⟨_, rfl⟩
    obtain ⟨DW, hDW⟩ : ∃ DW, List.dropWhile (fun c => !pyIsSpace c) (kw ++ z) = DW := ⟨_, rfl⟩
    rw [hTK, hDW] at hsplit
    rw [hTK] at htka htok
    have hDWne : DW ≠ [] := by
      intro hcon
      rw [hcon, List.append_nil] at hsplit
      rw [List.any_eq_true] at hws
      obtain ⟨x, hx, hxs⟩ := hws
      rw [← hsplit] at hx
      exact absurd hxs (by simp [htka x hx])
    have hrestne : List.dropWhile pyIsSpace DW ≠ [] := by
      intro hcon
      rw [List.dropWhile_eq_nil_iff] at hcon
      have hrw : rstrip (kw ++ z) = rstrip TK := by
        conv_lhs => rw [← hsplit]
        exact rstrip_append_ws _ hcon
      obtain ⟨u, hu⟩ := rstrip_decomp TK
      have hlen1 : (rstrip TK).length ≤ TK.length := by
        conv_rhs => rw [hu]
        simp
      have hlen2 := congrArg List.length hrcol
      rw [hrw] at hlen2
      have hlen3 := congrArg List.length hsplit
      rw [List.length_append] at hlen3
      have hDWlen : DW.length ≠ 0 := fun h0 => hDWne (List.eq_nil_of_length_eq_zero h0)
      omega
    have hdropTK : List.drop TK.length (kw ++ z) = DW := by
      conv_lhs => rw [← hsplit]
      exact List.drop_left _ _
    obtain ⟨c0, kwr, hkweq⟩ : ∃ c0 kwr, kw = c0 :: kwr := by
      cases hk : kw with
      | nil => exact absurd hk hkwne
      | cons a b => exact ⟨a, b, rfl⟩
    have hsw : splitWs1 (kw ++ z) = [TK, List.dropWhile pyIsSpace DW] := by
      have hcons : (kw ++ z : Str) = c0 :: (kwr ++ z) := by rw [hkweq]; simp
      have hlcol' := hlcol
      have hTK' := hTK
      have hdropTK' := hdropTK
      rw [hcons] at hlcol' hTK' hdropTK'
      rw [hcons]
      simp only [splitWs1, hlcol', hTK', hdropTK']
      rw [if_neg hrestne]
    refine ⟨TK, strip (List.dropWhile pyIsSpace DW), ?_, ?_⟩
    · rw [parse_member, hFKc z, hPKc z, if_neg (by simp), parse_column, hsw]
      show Except.ok (strip TK, strip (List.dropWhile pyIsSpace DW)) = _
      rw [strip_eq_self_of_all htka]
    · rw [htok]
      exact isConstraintName_append _ hkwmem

/-- Reparsing any well-formed constraint member yields a constraint-named
member. -/
theorem parse_member_constraint {n d : Str} (h : GoodConstr n d) :
    ∃ k v, parse_member (strip (renderMember (n, d))) = .ok (k, v) ∧
      isConstraintName k = true := by
  obtain ⟨hc, hchars, hbal, hsf, hcase⟩ := h
  rcases isConstraintName_cases hc with hPK | hUQ | hCK | hFK
  · rw [if_pos (Or.inr hPK)] at hcase
    exact parse_member_PK hPK hcase
  · have hneq := eq_append_of_startsW hUQ
    have hFKn : startsW (S "FOREIGN KEY") n = false := by
      rw [hneq]
      exact startsW_cons_append_false 'F' (S "OREIGN KEY") 'U' (S "NIQUE") _ (by decide)
    have hPKn : startsW (S "PRIMARY KEY") n = false := by
      rw [hneq]
      exact startsW_cons_append_false 'P' (S "RIMARY KEY") 'U' (S "NIQUE") _ (by decide)
    rw [if_neg (by simp [hFKn, hPKn])] at hcase
    exact parse_member_other (S "UNIQUE") (by decide) (by decide) (by decide) hUQ
      (fun z => startsWithCI_cons_append_false 'F' (S "OREIGN KEY") 'U' (S "NIQUE") z (by decide))
      (fun z => startsWithCI_cons_append_false 'P' (S "RIMARY KEY") 'U' (S "NIQUE") z (by decide))
      hcase
  · have hneq := eq_append_of_startsW hCK
    have hFKn : startsW (S "FOREIGN KEY") n = false := by
      rw [hneq]
      exact startsW_cons_append_false 'F' (S "OREIGN KEY") 'C' (S "HECK") _ (by decide)
    have hPKn : startsW (S "PRIMARY KEY") n = false := by
      rw [hneq]
      exact startsW_cons_append_false 'P' (S "RIMARY KEY") 'C' (S "HECK") _ (by decide)
    rw [if_neg (by simp [hFKn, hPKn])] at hcase
    exact parse_member_other (S "CHECK") (by decide) (by decide) (by decide) hCK
      (fun z => startsWithCI_cons_append_false 'F' (S "OREIGN KEY") 'C' (S "HECK") z (by decide))
      (fun z => startsWithCI_cons_append_false 'P' (S "RIMARY KEY") 'C' (S "HECK") z (by decide))
      hcase
  · rw [if_pos (Or.inl hFK)] at hcase
    exact parse_member_FK hFK hcase

/-- Every well-formed constraint member renders to a balanced clause without
top-level commas that survives stripping. -/
theorem constraint_clause_good {n d : Str} (h : GoodConstr n d) :
    balance (renderMember (n, d)) = 0 ∧ sepFree (renderMember (n, d)) 0 = true ∧
    strip (renderMember (n, d)) ≠ [] := by
  obtain ⟨hc, hchars, hbal, hsf, hcase⟩ := h
  refine ⟨hbal, hsf, ?_⟩
  rcases isConstraintName_cases hc with hk | hk | hk | hk <;>
    obtain hneq := eq_append_of_startsW hk
  · show strip (n ++ ' ' :: d) ≠ []
    rw [show (n ++ ' ' :: d : Str) = 'P' :: (S "RIMARY KEY" ++ (n.drop (S "PRIMARY KEY").length ++ ' ' :: d)) by
      conv_lhs => rw [hneq]
      rw [show (S "PRIMARY KEY" : Str) = 'P' :: S "RIMARY KEY" from rfl]
      simp]
    exact strip_ne_nil_of_head _ (by decide)
  · show strip (n ++ ' ' :: d) ≠ []
    rw [show (n ++ ' ' :: d : Str) = 'U' :: (S "NIQUE" ++ (n.drop (S "UNIQUE").length ++ ' ' :: d)) by
      conv_lhs => rw [hneq]
      rw [show (S "UNIQUE" : Str) = 'U' :: S "NIQUE" from rfl]
      simp]
    exact strip_ne_nil_of_head _ (by decide)
  · show strip (n ++ ' ' :: d) ≠ []
    rw [show (n ++ ' ' :: d : Str) = 'C' :: (S "HECK" ++ (n.drop (S "CHECK").length ++ ' ' :: d)) by
      conv_lhs => rw [hneq]
      rw [show (S "CHECK" : Str) = 'C' :: S "HECK" from rfl]
      simp]
    exact strip_ne_nil_of_head _ (by decide)
  · show strip (n ++ ' ' :: d) ≠ []
    rw [show (n ++ ' ' :: d : Str) = 'F' :: (S "OREIGN KEY" ++ (n.drop (S "FOREIGN KEY").length ++ ' ' :: d)) by
      conv_lhs => rw [hneq]
      rw [show (S "FOREIGN KEY" : Str) = 'F' :: S "OREIGN KEY" from rfl]
      simp]
    exact strip_ne_nil_of_head _ (by decide)

/- Level 6: dictionary bookkeeping for the member and table loops -/

/-- Lookup passes to the right part of an append when the left part misses. -/
theorem lookupStr_append_right {α : Type} {a : List (Str × α)} (b : List (Str × α))
    {k : Str} (h : lookupStr a k = none) : lookupStr (a ++ b) k = lookupStr b k := by
  induction a with
  | nil => rfl
  | cons kv rest ih =>
    obtain ⟨k0, v0⟩ := kv
    by_cases hk : k0 = k
    · simp [lookupStr, hk] at h
    · simp only [lookupStr, List.cons_append, if_neg hk] at h ⊢
      exact ih h

/-- Lookup ignores an appended part when the left part already hits. -/
theorem lookupStr_append_left {α : Type} {a : List (Str × α)} (b : List (Str × α))
    {k : Str} {v : α} (h : lookupStr a k = some v) :
    lookupStr (a ++ b) k = some v := by
  induction a with
  | nil => cases h
  | cons kv rest ih =>
    obtain ⟨k0, v0⟩ := kv
    by_cases hk : k0 = k
    · simp only [lookupStr, if_pos hk] at h
      simp only [List.cons_append, lookupStr, if_pos hk]
      exact h
    · simp only [lookupStr, List.cons_append, if_neg hk] at h ⊢
      exact ih h

/-- Inserting a fresh key appends it. -/
theorem dictInsert_fresh {α : Type} {m : List (Str × α)} {k : Str} (v : α)
    (h : lookupStr m k = none) : dictInsert m k v = m ++ [(k, v)] := by
  simp [dictInsert, h]

/-- Overwriting one key's value leaves every other key's lookup unchanged. -/
theorem lookupStr_map_replace {α : Type} (m : List (Str × α)) (k k' : Str) (v : α)
    (h : ¬ k = k') :
    lookupStr (m.map (fun kv => if kv.1 = k then (k, v) else kv)) k' =
      lookupStr m k' := by
  induction m with
  | nil => rfl
  | cons kv rest ih =>
    obtain ⟨k0, v0⟩ := kv
    rw [List.map_cons]
    by_cases h0 : k0 = k
    · rw [show (if ((k0, v0) : Str × α).1 = k then (k, v) else (k0, v0)) = (k, v) by
        simp [h0]]
      rw [lookupStr, if_neg h, lookupStr, if_neg (by rw [h0]; exact h)]
      exact ih
    · rw [show (if ((k0, v0) : Str × α).1 = k then (k, v) else (k0, v0)) = (k0, v0) by
        simp [h0]]
      rw [lookupStr, lookupStr]
      by_cases h1 : k0 = k'
      · rw [if_pos h1, if_pos h1]
      · rw [if_neg h1, if_neg h1]
        exact ih

/-- Dictionary insertion leaves every other key's lookup unchanged. -/
theorem lookupStr_dictInsert_ne {α : Type} (m : List (Str × α)) {k k' : Str} (v : α)
    (h : ¬ k = k') : lookupStr (dictInsert m k v) k' = lookupStr m k' := by
  rw [dictInsert]
  by_cases hs : (lookupStr m k).isSome
  · rw [if_pos hs]
    exact lookupStr_map_replace m k k' v h
  · rw [if_neg hs]
    cases hl : lookupStr m k' with
    | none =>
      rw [lookupStr_append_right _ hl]
      simp [lookupStr, h]
    | some w => rw [lookupStr_append_left _ hl]

/-- Data fields distribute over append. -/
theorem dataFields_append (a b : List (Str × Str)) :
    dataFields (a ++ b) = dataFields a ++ dataFields b := by
  simp [dataFields, List.filter_append]

/-- Overwriting a value in place leaves the data-field list unchanged. -/
theorem dataFields_map_replace (m : List (Str × Str)) (k v : Str) :
    dataFields (m.map (fun kv => if kv.1 = k then (k, v) else kv)) = dataFields m := by
  induction m with
  | nil => rfl
  | cons kv rest ih =>
    obtain ⟨k0, v0⟩ := kv
    rw [List.map_cons]
    by_cases h0 : k0 = k
    · rw [show (if ((k0, v0) : Str × Str).1 = k then (k, v) else (k0, v0)) = (k0, v) by
        simp [h0]]
      simp only [dataFields, List.filter_cons] at ih ⊢
      by_cases hc : isConstraintName k0 = true
      · simp only [hc, Bool.not_true]
        simpa [dataFields] using ih
      · rw [Bool.not_eq_true] at hc
        simp only [hc, Bool.not_false, if_pos trivial, List.map_cons]
        simpa [dataFields] using congrArg (List.cons k0) ih
    · rw [show (if ((k0, v0) : Str × Str).1 = k then (k, v) else (k0, v0)) = (k0, v0) by
        simp [h0]]
      simp only [dataFields, List.filter_cons] at ih ⊢
      by_cases hc : isConstraintName k0 = true
      · simp only [hc, Bool.not_true]
        simpa [dataFields] using ih
      · rw [Bool.not_eq_true] at hc
        simp only [hc, Bool.not_false, if_pos trivial, List.map_cons]
        simpa [dataFields] using congrArg (List.cons k0) ih

/-- Inserting under a constraint-style key never adds a data field. -/
theorem dataFields_dictInsert_constr (m : List (Str × Str)) {k : Str} (v : Str)
    (h : isConstraintName k = true) : dataFields (dictInsert m k v) = dataFields m := by
  rw [dictInsert]
  by_cases hs : (lookupStr m k).isSome
  · rw [if_pos hs, dataFields_map_replace]
  · rw [if_neg hs, dataFields_append]
    simp [dataFields, List.filter_cons, h]

/-- Inserting a fresh data key appends exactly that data field. -/
theorem dataFields_dictInsert_data (m : List (Str × Str)) {k : Str} (v : Str)
    (hfresh : lookupStr m k = none) (h : isConstraintName k = false) :
    dataFields (dictInsert m k v) = dataFields m ++ [k] := by
  rw [dictInsert_fresh v hfresh, dataFields_append]
  simp [dataFields, List.filter_cons, h]

/-- The member loop over well-formed rendered members succeeds and produces a
dictionary whose data fields extend the accumulator's by the table's data
columns, in order. -/
theorem processCols_good (ms : List (Str × Str)) : ∀ (acc : List (Str × Str)),
    (∀ m ∈ ms, if isConstraintName m.1 then GoodConstr m.1 m.2 else GoodData m.1 m.2) →
    (ms.map Prod.fst).Nodup →
    (∀ m ∈ ms, isConstraintName m.1 = false → lookupStr acc m.1 = none) →
    ∃ r, processCols (ms.map (fun m => strip (renderMember m))) acc = .ok r ∧
      dataFields r = dataFields acc ++ dataFields ms := by
  induction ms with
  | nil =>
    intro acc _ _ _
    exact ⟨acc, rfl, by simp [dataFields]⟩
  | cons m ms' ih =>
    intro acc hg hnd hfr
    obtain ⟨n, d⟩ := m
    have hgm := hg (n, d) (List.mem_cons_self _ _)
    rw [List.map_cons, List.nodup_cons] at hnd
    by_cases hc : isConstraintName n = true
    · rw [if_pos hc] at hgm
      obtain ⟨hbal, hsf, hst⟩ := constraint_clause_good hgm
      obtain ⟨k, v, hpm, hkc⟩ := parse_member_constraint hgm
      simp only [List.map_cons, processCols, strip_idem]
      rw [if_neg hst, hpm]
      obtain ⟨r, hr, hdf⟩ := ih (dictInsert acc k v)
        (fun q hq => hg q (List.mem_cons_of_mem _ hq)) hnd.2
        (fun q hq hq2 => by
          rw [lookupStr_dictInsert_ne _ v
            (fun he => absurd (he ▸ hkc) (by simp [hq2]))]
          exact hfr q (List.mem_cons_of_mem _ hq) hq2)
      refine ⟨r, hr, ?_⟩
      rw [hdf, dataFields_dictInsert_constr _ v hkc]
      congr 1
      simp [dataFields, List.filter_cons, hc]
    · rw [Bool.not_eq_true] at hc
      rw [if_neg (by simp [hc])] at hgm
      obtain ⟨hbal, hsf, hst⟩ := data_clause_good hgm
      have hpm := parse_member_data hgm
      simp only [List.map_cons, processCols, strip_idem]
      rw [if_neg hst, hpm]
      have hfrn : lookupStr acc n = none := hfr (n, d) (List.mem_cons_self _ _) hc
      obtain ⟨r, hr, hdf⟩ := ih (dictInsert acc n d)
        (fun q hq => hg q (List.mem_cons_of_mem _ hq)) hnd.2
        (fun q hq hq2 => by
          rw [lookupStr_dictInsert_ne _ d
            (fun he => hnd.1 (by
              have hx : q.1 ∈ List.map Prod.fst ms' := List.mem_map_of_mem Prod.fst hq
              rwa [← he] at hx))]
          exact hfr q (List.mem_cons_of_mem _ hq) hq2)
      refine ⟨r, hr, ?_⟩
      rw [hdf, dataFields_dictInsert_data _ d hfrn hc]
      rw [show dataFields ((n, d) :: ms') = n :: dataFields ms' by
        simp [dataFields, List.filter_cons, hc]]
      simp

/- Level 7: locating the column body and the table name in a statement -/

/-- Benign clause characters are not semicolons. -/
theorem goodChar_semi {c : Char} (h : goodChar c = true) : c ≠ ';' := by
  intro he
  rw [he] at h
  exact absurd h (by decide)

/-- A property holding on the separator and on every piece holds on the
interleaving. -/
theorem mem_intercalate_all {P : Char → Prop} (sep : Str) (l : List Str)
    (hsep : ∀ c ∈ sep, P c) (hl : ∀ x ∈ l, ∀ c ∈ x, P c) :
    ∀ c ∈ List.intercalate sep l, P c := by
  induction l with
  | nil =>
    intro c hc
    simp [List.intercalate] at hc
  | cons x l' ih =>
    cases l' with
    | nil =>
      intro c hc
      rw [show List.intercalate sep [x] = x by simp [List.intercalate]] at hc
      exact hl x (List.mem_cons_self _ _) c hc
    | cons y l'' =>
      intro c hc
      rw [intercalate_cons2] at hc
      rcases List.mem_append.1 hc with hc1 | hc2
      · rcases List.mem_append.1 hc1 with h1 | h1
        · exact hl x (List.mem_cons_self _ _) c h1
        · exact hsep c h1
      · exact ih (fun z hz => hl z (List.mem_cons_of_mem _ hz)) c hc2

/-- The text before the last closing parenthesis of a body ending in ");". -/
theorem upToLastRp_concat (m : Str) : upToLastRp (m ++ [')', ';']) = m := by
  rw [upToLastRp]
  rw [show (m ++ [')', ';'] : Str).reverse = ';' :: ')' :: m.reverse by simp]
  rw [List.dropWhile_cons_of_pos (by decide), List.dropWhile_cons_of_neg (by decide)]
  simp

/-- The paren-body search skips any non-parenthesis character. -/
theorem parenBody_cons_ne {c : Char} (s : Str) (h : c ≠ '(') :
    parenBody (c :: s) = parenBody s := by
  rw [parenBody.eq_def]
  split
  · simp_all
  · simp_all
  · simp_all

/-- The paren-body search skips a parenthesis-free prefix. -/
theorem parenBody_append {a : Str} (s : Str) (h : '(' ∉ a) :
    parenBody (a ++ s) = parenBody s := by
  induction a with
  | nil => rfl
  | cons c a' ih =>
    rw [List.cons_append,
      parenBody_cons_ne _ (fun he => h (he ▸ List.mem_cons_self _ _))]
    exact ih (fun hm => h (List.mem_cons_of_mem _ hm))

/-- The column body extracted from a generated CREATE TABLE statement. -/
theorem parenBody_ct (table : Str) (defs : List Str)
    (htb : ∀ c ∈ table, isWordChar c = true) :
    parenBody (create_table_stmt table defs) =
      some (S "\n    " ++ (List.intercalate (S ",\n    ") defs ++ S "\n")) := by
  have hshape : create_table_stmt table defs =
      (S "CREATE TABLE IF NOT EXISTS " ++ table ++ [' ']) ++
        ('(' :: ((S "\n    " ++ (List.intercalate (S ",\n    ") defs ++ S "\n")) ++
          [')', ';'])) := by
    rw [create_table_stmt]
    rw [show (S " (\n    " : Str) = [' '] ++ ('(' :: S "\n    ") from rfl,
      show (S "\n);" : Str) = S "\n" ++ [')', ';'] from rfl]
    simp
  rw [hshape]
  rw [parenBody_append _ (by
    intro hm
    rcases List.mem_append.1 hm with h1 | h1
    · rcases List.mem_append.1 h1 with h2 | h2
      · exact absurd h2 (by decide)
      · exact absurd rfl (wordChar_not_special (htb '(' h2)).1
    · exact absurd h1 (by decide))]
  rw [parenBody]
  rw [if_pos (by simp)]
  rw [upToLastRp_concat]

/-- Filtering the constraint members leaves no data fields. -/
theorem dataFields_filter_constr (cols : List (Str × Str)) :
    dataFields (cols.filter (fun m => isConstraintName m.1)) = [] := by
  induction cols with
  | nil => rfl
  | cons m rest ih =>
    rw [List.filter_cons]
    by_cases hc : isConstraintName m.1 = true
    · rw [if_pos (by simp [hc])]
      simpa [dataFields, List.filter_cons, hc] using ih
    · rw [Bool.not_eq_true] at hc
      rw [if_neg (by simp [hc])]
      exact ih

/-- Filtering the data members keeps exactly the data fields. -/
theorem dataFields_filter_data (cols : List (Str × Str)) :
    dataFields (cols.filter (fun m => !isConstraintName m.1)) = dataFields cols := by
  induction cols with
  | nil => rfl
  | cons m rest ih =>
    rw [List.filter_cons]
    by_cases hc : isConstraintName m.1 = true
    · rw [if_neg (by simp [hc]), ih]
      simp [dataFields, List.filter_cons, hc]
    · rw [Bool.not_eq_true] at hc
      rw [if_pos (by simp [hc])]
      rw [show dataFields (m :: rest.filter (fun m => !isConstraintName m.1)) =
          m.1 :: dataFields (rest.filter (fun m => !isConstraintName m.1)) by
        simp [dataFields, List.filter_cons, hc]]
      rw [ih]
      simp [dataFields, List.filter_cons, hc]

/-- The data-then-constraints ordering is a permutation of the member list. -/
theorem msOrder_perm (cols : List (Str × Str)) :
    List.Perm (cols.filter (fun m => !isConstraintName m.1) ++
      cols.filter (fun m => isConstraintName m.1)) cols := by
  have h := List.filter_append_perm (fun m => !isConstraintName m.1) cols
  simpa using h

/-- Every member's rendered clause consists of benign characters. -/
theorem member_chars_good {cols : List (Str × Str)} (hg : GoodTable cols)
    {m : Str × Str} (hm : m ∈ cols) : ∀ c ∈ renderMember m, goodChar c = true := by
  have hgm := hg.2 m hm
  by_cases hc : isConstraintName m.1 = true
  · rw [if_pos hc] at hgm
    exact hgm.2.1
  · rw [Bool.not_eq_true] at hc
    rw [if_neg (by simp [hc])] at hgm
    obtain ⟨⟨hne, hw⟩, _, _, hd, _⟩ := hgm
    intro c hcm
    obtain ⟨n, d⟩ := m
    rw [renderMember] at hcm
    rcases List.mem_append.1 hcm with h1 | h1
    · exact wordChar_good (hw c h1)
    · rcases List.mem_cons.1 h1 with h2 | h2
      · rw [h2]; decide
      · exact hd c h2

/- Level 8: column extraction and table-name extraction on generated text -/

/-- Extracting the columns of a generated CREATE TABLE statement succeeds and
recovers the table's data fields. -/
theorem extract_columns_ct (table : Str) (cols : List (Str × Str))
    (hgt : GoodTable cols) (htb : ∀ c ∈ table, isWordChar c = true) :
    ∃ r, extract_columns (create_table_stmt table
        ((cols.filter (fun m => !isConstraintName m.1)).map renderMember ++
         (cols.filter (fun m => isConstraintName m.1)).map renderMember)) = .ok r ∧
      dataFields r = dataFields cols := by
  have hperm := msOrder_perm cols
  have hmem : ∀ m ∈ cols.filter (fun m => !isConstraintName m.1) ++
      cols.filter (fun m => isConstraintName m.1), m ∈ cols :=
    fun m hm => hperm.mem_iff.1 hm
  have hclause : ∀ cl ∈ ((cols.filter (fun m => !isConstraintName m.1) ++
      cols.filter (fun m => isConstraintName m.1)).map renderMember),
      balance cl = 0 ∧ sepFree cl 0 = true ∧ strip cl ≠ [] := by
    intro cl hcl
    rw [List.mem_map] at hcl
    obtain ⟨m, hm, rfl⟩ := hcl
    have hgm := hgt.2 m (hmem m hm)
    by_cases hc : isConstraintName m.1 = true
    · rw [if_pos hc] at hgm
      exact constraint_clause_good hgm
    · rw [Bool.not_eq_true] at hc
      rw [if_neg (by simp [hc])] at hgm
      exact data_clause_good hgm
  obtain ⟨r, hr, hdf⟩ := processCols_good (cols.filter (fun m => !isConstraintName m.1) ++
      cols.filter (fun m => isConstraintName m.1)) []
    (fun m hm => hgt.2 m (hmem m hm))
    (((hperm.map Prod.fst).nodup_iff).2 hgt.1)
    (fun m hm h2 => rfl)
  refine ⟨r, ?_, ?_⟩
  · rw [extract_columns, ← List.map_append, parenBody_ct table _ htb]
    show processCols (split_columns (S "\n    " ++
      (List.intercalate (S ",\n    ") ((cols.filter (fun m => !isConstraintName m.1) ++
        cols.filter (fun m => isConstraintName m.1)).map renderMember) ++ S "\n"))) [] =
      Except.ok r
    rw [split_columns_body _ hclause, List.map_map]
    exact hr
  · rw [hdf, dataFields_append, dataFields_filter_data, dataFields_filter_constr]
    simp [dataFields]

/-- The name-tail pattern matches right after the keyword in generated text. -/
theorem matchNameTail_good {table : Str} (rest3 : Str)
    (hne : table ≠ []) (hw : ∀ c ∈ table, isWordChar c = true) :
    matchNameTail (' ' :: (table ++ (' ' :: '(' :: rest3))) = some table := by
  obtain ⟨c0, t0, hc⟩ : ∃ c0 t0, table = c0 :: t0 := by
    cases h : table with
    | nil => exact absurd h hne
    | cons a b => exact ⟨a, b, rfl⟩
  have hns : pyIsSpace c0 = false :=
    wordChar_not_space (hw c0 (by rw [hc]; exact List.mem_cons_self _ _))
  have htw : List.takeWhile pyIsSpace (' ' :: (table ++ (' ' :: '(' :: rest3))) = [' '] := by
    rw [List.takeWhile_cons_of_pos (by decide), hc, List.cons_append,
      List.takeWhile_cons_of_neg (by simp [hns])]
  have hdw : List.dropWhile pyIsSpace (' ' :: (table ++ (' ' :: '(' :: rest3))) =
      table ++ (' ' :: '(' :: rest3) := by
    rw [List.dropWhile_cons_of_pos (by decide), hc, List.cons_append,
      List.dropWhile_cons_of_neg (by simp [hns]), ← List.cons_append, ← hc]
  have hname : List.takeWhile isWordChar (table ++ (' ' :: '(' :: rest3)) = table := by
    rw [takeWhile_append_all _ hw, List.takeWhile_cons_of_neg (by decide), List.append_nil]
  have hdrop : List.drop table.length (table ++ (' ' :: '(' :: rest3)) =
      ' ' :: '(' :: rest3 := List.drop_left _ _
  have hdw2 : List.dropWhile pyIsSpace (' ' :: '(' :: rest3) = '(' :: rest3 := by
    rw [List.dropWhile_cons_of_pos (by decide), List.dropWhile_cons_of_neg (by decide)]
  simp only [matchNameTail, htw, hdw, hname, hdrop, hdw2]
  rw [if_neg (by decide), if_neg hne]

/-- The case-insensitive keyword-name search succeeds at the very start. -/
theorem searchName_at_start {kw : Str} (tail : Str) (c0 : Char) (kw' : Str)
    {n : Str} (hkw : kw = c0 :: kw') (hm : matchNameTail tail = some n) :
    searchName kw (kw ++ tail) = some n := by
  have hshape : kw ++ tail = c0 :: (kw' ++ tail) := by rw [hkw]; simp
  rw [hshape, searchName]
  rw [show c0 :: (kw' ++ tail) = kw ++ tail from hshape.symm]
  rw [if_pos (startsWithCI_append _ _), List.drop_left _ _, hm]

/-- The table name extracted from a generated CREATE TABLE statement. -/
theorem extract_table_name_ct (table : Str) (defs : List Str)
    (hne : table ≠ []) (hw : ∀ c ∈ table, isWordChar c = true) :
    extract_table_name (create_table_stmt table defs) = .ok table := by
  have hshape : create_table_stmt table defs =
      S "CREATE TABLE IF NOT EXISTS" ++ (' ' :: (table ++ (' ' :: '(' ::
        (S "\n    " ++ List.intercalate (S ",\n    ") defs ++ S "\n);")))) := by
    rw [create_table_stmt]
    rw [show (S "CREATE TABLE IF NOT EXISTS " : Str) =
        S "CREATE TABLE IF NOT EXISTS" ++ [' '] from rfl,
      show (S " (\n    " : Str) = ' ' :: '(' :: S "\n    " from rfl]
    simp
  rw [hshape, extract_table_name,
    searchName_at_start _ 'C' (S "REATE TABLE IF NOT EXISTS")
      (show (S "CREATE TABLE IF NOT EXISTS" : Str) =
        'C' :: S "REATE TABLE IF NOT EXISTS" from rfl)
      (matchNameTail_good _ hne hw)]

/- Level 9: splitting the generated text back into statements -/

/-- A successful substring split decomposes the subject. -/
theorem splitAtSub_shape {pat : Str} : ∀ {s b a : Str},
    splitAtSub pat s = some (b, a) → s = b ++ pat ++ a := by
  intro s
  induction s with
  | nil =>
    intro b a h
    rw [splitAtSub] at h
    by_cases hp : pat = []
    · rw [if_pos hp] at h
      obtain ⟨rfl, rfl⟩ : b = [] ∧ a = [] := by
        constructor <;> [exact (congrArg Prod.fst (Option.some.inj h)).symm;
          exact (congrArg Prod.snd (Option.some.inj h)).symm]
      simp [hp]
    · rw [if_neg hp] at h
      cases h
  | cons c rest ih =>
    intro b a h
    rw [splitAtSub] at h
    by_cases hs : startsW pat (c :: rest) = true
    · rw [if_pos hs] at h
      have hb : b = [] := (congrArg Prod.fst (Option.some.inj h)).symm
      have ha : a = (c :: rest).drop pat.length := (congrArg Prod.snd (Option.some.inj h)).symm
      rw [hb, ha, List.nil_append]
      exact eq_append_of_startsW hs
    · rw [if_neg hs] at h
      cases hrec : splitAtSub pat rest with
      | none => rw [hrec] at h; cases h
      | some ba =>
        obtain ⟨b', a'⟩ := ba
        rw [hrec] at h
        have hb : b = c :: b' := (congrArg Prod.fst (Option.some.inj h)).symm
        have ha : a = a' := (congrArg Prod.snd (Option.some.inj h)).symm
        rw [hb, ha]
        have := ih hrec
        rw [List.cons_append, List.cons_append, ← this]

/-- The terminator search finds the first ");" after a semicolon-free body. -/
theorem splitAtSub_rp (post : Str) : ∀ (pre : Str), ';' ∉ pre →
    splitAtSub endLit (pre ++ ')' :: ';' :: post) = some (pre, post) := by
  intro pre
  induction pre with
  | nil =>
    intro h
    rw [List.nil_append, splitAtSub, if_pos (by simp [endLit, startsW, S])]
    rfl
  | cons c pre' ih =>
    intro h
    have hsw : startsW endLit (c :: (pre' ++ ')' :: ';' :: post)) = false := by
      cases pre' with
      | nil => simp [endLit, startsW, S]
      | cons d pre'' =>
        have hd : ¬ (';' = d) := fun he => h (by
          rw [← he] at *
          exact List.mem_cons_of_mem _ (List.mem_cons_self _ _))
        simp [endLit, startsW, S]
        intro h1 h2
        exact absurd h2 hd
    rw [List.cons_append, splitAtSub, if_neg (by simp [hsw])]
    rw [ih (fun hm => h (List.mem_cons_of_mem _ hm))]

/-- The statement scanner ignores the exact fuel once it covers the input. -/
theorem findStmtsF_fuel : ∀ (n : Nat) (s : Str), s.length ≤ n →
    ∀ f1 f2, s.length < f1 → s.length < f2 → findStmtsF f1 s = findStmtsF f2 s := by
  intro n
  induction n with
  | zero =>
    intro s hs f1 f2 h1 h2
    have hnil : s = [] := List.eq_nil_of_length_eq_zero (Nat.le_zero.mp hs)
    subst hnil
    cases f1 with
    | zero => omega
    | succ f1' =>
      cases f2 with
      | zero => omega
      | succ f2' => rfl
  | succ n ih =>
    intro s hs f1 f2 h1 h2
    cases s with
    | nil =>
      cases f1 with
      | zero => omega
      | succ f1' =>
        cases f2 with
        | zero => omega
        | succ f2' => rfl
    | cons c rest =>
      cases f1 with
      | zero => omega
      | succ f1' =>
        cases f2 with
        | zero => omega
        | succ f2' =>
          rw [List.length_cons] at hs h1 h2
          rw [findStmtsF, findStmtsF]
          by_cases hci : startsWithCI ctLit (c :: rest) = true
          · rw [if_pos hci, if_pos hci]
            cases hsp : splitAtSub endLit ((c :: rest).drop ctLit.length) with
            | none =>
              simp only [hsp]
              exact ih rest (by omega) f1' f2' (by omega) (by omega)
            | some ba =>
              obtain ⟨body, after⟩ := ba
              simp only [hsp]
              have hlen := congrArg List.length (splitAtSub_shape hsp)
              rw [List.length_drop, List.length_cons, List.length_append,
                List.length_append] at hlen
              have hct : (ctLit : Str).length = 12 := by decide
              have hel : (endLit : Str).length = 2 := by decide
              rw [hct, hel] at hlen
              congr 1
              exact ih after (by omega) f1' f2' (by omega) (by omega)
          · rw [if_neg hci, if_neg hci]
            exact ih rest (by omega) f1' f2' (by omega) (by omega)

/-- The statement scanner skips a position that does not start CREATE TABLE. -/
theorem split_statements_skip {c : Char} (s : Str)
    (h : startsWithCI ctLit (c :: s) = false) :
    split_statements (c :: s) = split_statements s := by
  rw [split_statements, split_statements,
    show (c :: s).length + 1 = (s.length + 1) + 1 by simp, findStmtsF,
    if_neg (by simp [h])]

/-- The statement scanner takes one full statement off the front. -/
theorem split_statements_step (pre tail : Str) (hsemi : ';' ∉ pre) :
    split_statements ((ctLit ++ pre ++ endLit) ++ tail) =
      (ctLit ++ pre ++ endLit) :: split_statements tail := by
  have hshape : (ctLit ++ pre ++ endLit) ++ tail =
      'C' :: (S "REATE TABLE" ++ (pre ++ ')' :: ';' :: tail)) := by
    rw [show (ctLit : Str) = 'C' :: S "REATE TABLE" from rfl,
      show (endLit : Str) = [')', ';'] from rfl]
    simp
  have hback : 'C' :: (S "REATE TABLE" ++ (pre ++ ')' :: ';' :: tail)) =
      ctLit ++ (pre ++ ')' :: ';' :: tail) := by
    rw [show (ctLit : Str) = 'C' :: S "REATE TABLE" from rfl]
    simp
  rw [split_statements, hshape, findStmtsF]
  rw [if_pos (by rw [hback]; exact startsWithCI_append _ _)]
  rw [show ('C' :: (S "REATE TABLE" ++ (pre ++ ')' :: ';' :: tail))).drop ctLit.length =
      pre ++ ')' :: ';' :: tail by rw [hback]; exact List.drop_left _ _]
  rw [splitAtSub_rp tail pre hsemi]
  show (('C' :: (S "REATE TABLE" ++ (pre ++ ')' :: ';' :: tail))).take ctLit.length ++
      pre ++ endLit) :: findStmtsF ('C' :: (S "REATE TABLE" ++ (pre ++ ')' :: ';' :: tail))).length tail =
    (ctLit ++ pre ++ endLit) :: split_statements tail
  rw [show ('C' :: (S "REATE TABLE" ++ (pre ++ ')' :: ';' :: tail))).take ctLit.length =
      ctLit by rw [hback]; exact List.take_left _ _]
  congr 1
  rw [split_statements]
  refine findStmtsF_fuel tail.length tail le_rfl _ _ ?_ (by omega)
  rw [hback]
  simp
  omega

/-- Splitting the blank-line interleaving of well-shaped statements recovers
the statement list. -/
theorem split_statements_all (sts : List Str)
    (h : ∀ st ∈ sts, ∃ pre, st = ctLit ++ pre ++ endLit ∧ ';' ∉ pre) :
    split_statements (List.intercalate (S "\n\n") sts) = sts := by
  induction sts with
  | nil => rfl
  | cons st sts' ih =>
    obtain ⟨pre, hst, hsemi⟩ := h st (List.mem_cons_self _ _)
    cases sts' with
    | nil =>
      rw [show List.intercalate (S "\n\n") [st] = st by simp [List.intercalate], hst]
      rw [show (ctLit ++ pre ++ endLit : Str) = (ctLit ++ pre ++ endLit) ++ [] by simp]
      rw [split_statements_step pre [] hsemi]
      have h0 : split_statements ([] : Str) = [] := rfl
      rw [h0]
      simp
    | cons st2 sts'' =>
      rw [intercalate_cons2, hst]
      rw [show (ctLit ++ pre ++ endLit) ++ S "\n\n" ++
          List.intercalate (S "\n\n") (st2 :: sts'') =
          (ctLit ++ pre ++ endLit) ++
            ('\n' :: '\n' :: List.intercalate (S "\n\n") (st2 :: sts'')) by
        rw [show (S "\n\n" : Str) = ['\n', '\n'] from rfl]
        simp]
      rw [split_statements_step pre _ hsemi]
      rw [split_statements_skip _ (startsWithCI_head_false (S "REATE TABLE") _ (by decide))]
      rw [split_statements_skip _ (startsWithCI_head_false (S "REATE TABLE") _ (by decide))]
      rw [ih (fun st' h' => h st' (List.mem_cons_of_mem _ h'))]

/- Level 10: whole-schema assembly of the round trip -/

/-- With no index hints, the generated text is the CREATE TABLE statements
joined with blank lines. -/
theorem generate_sql_stmts (schema : List (Str × List (Str × Str))) :
    (generate_sql schema []).1 =
      List.intercalate (S "\n\n") (schema.map (fun p => create_table_stmt p.1
        ((p.2.filter (fun m => !isConstraintName m.1)).map renderMember ++
         (p.2.filter (fun m => isConstraintName m.1)).map renderMember))) := by
  show List.intercalate (S "\n\n") ((schema.map (fun p => table_sql p.1 p.2 [])).flatten) = _
  congr 1
  induction schema with
  | nil => rfl
  | cons p s' ih =>
    rw [List.map_cons, List.map_cons, List.flatten_cons, ih]
    rw [show table_sql p.1 p.2 [] = [create_table_stmt p.1
        ((p.2.filter (fun m => !isConstraintName m.1)).map renderMember ++
         (p.2.filter (fun m => isConstraintName m.1)).map renderMember)] by
      simp [table_sql]]
    rfl

/-- A generated CREATE TABLE statement has the shape the statement splitter
recovers: the CREATE TABLE literal, a semicolon-free body, then ");". -/
theorem create_table_stmt_shape (table : Str) (defs : List Str)
    (htb : ∀ c ∈ table, isWordChar c = true)
    (hdefs : ∀ cl ∈ defs, ∀ c ∈ cl, goodChar c = true) :
    ∃ pre, create_table_stmt table defs = ctLit ++ pre ++ endLit ∧ ';' ∉ pre := by
  refine ⟨S " IF NOT EXISTS " ++ (table ++ (S " (\n    " ++
    (List.intercalate (S ",\n    ") defs ++ ['\n']))), ?_, ?_⟩
  · rw [create_table_stmt]
    rw [show (S "CREATE TABLE IF NOT EXISTS " : Str) =
        ctLit ++ S " IF NOT EXISTS " from rfl,
      show (S "\n);" : Str) = ['\n'] ++ endLit from rfl]
    simp
  · intro hmem
    rcases List.mem_append.1 hmem with h1 | h1
    · exact absurd h1 (by decide)
    rcases List.mem_append.1 h1 with h2 | h2
    · exact absurd rfl (wordChar_not_special (htb ';' h2)).2.2.2
    rcases List.mem_append.1 h2 with h3 | h3
    · exact absurd h3 (by decide)
    rcases List.mem_append.1 h3 with h4 | h4
    · exact mem_intercalate_all (P := fun c => c ≠ ';') _ defs (by decide)
        (fun x hx c hc => goodChar_semi (hdefs x hx c hc)) ';' h4 rfl
    · exact absurd h4 (by decide)

/-- The statement loop over generated statements builds a table dictionary
with the schema's table names and data fields. -/
theorem parseTables_good (schema : List (Str × List (Str × Str))) :
    ∀ (acc : List (Str × List (Str × Str))),
    GoodSchema schema →
    (∀ p ∈ schema, lookupStr acc p.1 = none) →
    ∃ tables, parseTables (schema.map (fun p => create_table_stmt p.1
        ((p.2.filter (fun m => !isConstraintName m.1)).map renderMember ++
         (p.2.filter (fun m => isConstraintName m.1)).map renderMember))) acc =
        .ok tables ∧
      tables.map Prod.fst = acc.map Prod.fst ++ schema.map Prod.fst ∧
      (∀ k v, lookupStr acc k = some v → lookupStr tables k = some v) ∧
      (∀ p ∈ schema, ∃ cols, lookupStr tables p.1 = some cols ∧
        dataFields cols = dataFields p.2) := by
  induction schema with
  | nil =>
    intro acc _ _
    exact ⟨acc, rfl, by simp, fun k v h => h, by simp⟩
  | cons p schema' ih =>
    intro acc hgs hfr
    obtain ⟨hnd, hgood⟩ := hgs
    rw [List.map_cons, List.nodup_cons] at hnd
    obtain ⟨hgn, hgt⟩ := hgood p (List.mem_cons_self _ _)
    obtain ⟨r, hr, hdf⟩ := extract_columns_ct p.1 p.2 hgt hgn.2
    have hfrp : lookupStr acc p.1 = none := hfr p (List.mem_cons_self _ _)
    rw [List.map_cons, parseTables]
    simp only [extract_table_name_ct p.1 _ hgn.1 hgn.2, hr]
    rw [dictInsert_fresh r hfrp]
    obtain ⟨tables, ht, hkeys, hpres, hall⟩ := ih (acc ++ [(p.1, r)])
      ⟨hnd.2, fun q hq => hgood q (List.mem_cons_of_mem _ hq)⟩
      (fun q hq => by
        rw [lookupStr_append_right _ (hfr q (List.mem_cons_of_mem _ hq))]
        rw [lookupStr, if_neg (fun he => hnd.1 (by
          have hx : q.1 ∈ List.map Prod.fst schema' := List.mem_map_of_mem Prod.fst hq
          rwa [← he] at hx))]
        rfl)
    refine ⟨tables, ht, ?_, ?_, ?_⟩
    · rw [hkeys]
      simp
    · intro k v hk
      exact hpres k v (lookupStr_append_left _ hk)
    · intro q hq
      rcases List.mem_cons.1 hq with h1 | h1
      · refine ⟨r, ?_, h1 ▸ hdf⟩
        rw [h1]
        exact hpres p.1 r (lookupStr_append_self acc p.1 r hfrp)
      · exact hall q h1

/-- C4: the member splitter divides a table body exactly at top-level commas,
scanning character by character with a paren-depth counter incremented on an
opening and decremented on a closing parenthesis, a comma separating only at
depth zero; in particular CHECK(rating >= 1 AND rating <= 5) and
DECIMAL(10, 2) clauses stay intact as single members. -/
theorem c4_split_columns_depth :
    (∀ s : Str, split_columns s = stripChunks (topChunks s)) ∧
    split_columns (S "id INTEGER PRIMARY KEY,\n    rating INTEGER CHECK(rating >= 1 AND rating <= 5),\n    price DECIMAL(10, 2) NOT NULL") =
      [S "id INTEGER PRIMARY KEY",
       S "rating INTEGER CHECK(rating >= 1 AND rating <= 5)",
       S "price DECIMAL(10, 2) NOT NULL"] :=
  ⟨split_columns_eq_chunks, by decide⟩

/-- C7: rendering a well-formed structured schema to SQL text with
generate_sql (no index hints) and parsing that text back with SqlStrToDict
yields a table dictionary with the same table names in order and, for every
table, a column dictionary whose data-column names are exactly the original
table's data columns (constraint members need not keep their names). -/
theorem c7_generate_parse_roundtrip (schema : List (Str × List (Str × Str)))
    (h : GoodSchema schema) :
    ∃ tables, parse (generate_sql schema []).1 = .ok tables ∧
      tables.map Prod.fst = schema.map Prod.fst ∧
      ∀ p ∈ schema, ∃ cols, lookupStr tables p.1 = some cols ∧
        dataFields cols = dataFields p.2 := by
  have hsts : ∀ st ∈ schema.map (fun p => create_table_stmt p.1
      ((p.2.filter (fun m => !isConstraintName m.1)).map renderMember ++
       (p.2.filter (fun m => isConstraintName m.1)).map renderMember)),
      ∃ pre, st = ctLit ++ pre ++ endLit ∧ ';' ∉ pre := by
    intro st hst
    rw [List.mem_map] at hst
    obtain ⟨p, hp, hpe⟩ := hst
    obtain ⟨hgn, hgt⟩ := h.2 p hp
    rw [← hpe]
    refine create_table_stmt_shape p.1 _ hgn.2 ?_
    intro cl hcl
    rcases List.mem_append.1 hcl with h1 | h1 <;>
    · rw [List.mem_map] at h1
      obtain ⟨m, hm, rfl⟩ := h1
      exact member_chars_good hgt (List.mem_of_mem_filter hm)
  rw [generate_sql_stmts, parse, split_statements_all _ hsts]
  obtain ⟨tables, ht, hkeys, _, hall⟩ := parseTables_good schema [] h (fun p hp => rfl)
  exact ⟨tables, ht, by simpa using hkeys, hall⟩

/-- C7 witness: the round trip at a concrete two-table schema with a data
column, a NOT NULL column and a FOREIGN KEY constraint. -/
theorem c7_generate_parse_roundtrip_witness :
    GoodSchema [(S "users", [(S "id", S "INTEGER"), (S "name", S "TEXT NOT NULL")]),
      (S "orders", [(S "oid", S "INTEGER"),
        (S "FOREIGN KEY(oid)", S "REFERENCES users(id)")])] ∧
    (∃ tables,
      parse (generate_sql [(S "users", [(S "id", S "INTEGER"), (S "name", S "TEXT NOT NULL")]),
        (S "orders", [(S "oid", S "INTEGER"),
          (S "FOREIGN KEY(oid)", S "REFERENCES users(id)")])] []).1 = .ok tables ∧
      tables.map Prod.fst = [(S "users", [(S "id", S "INTEGER"), (S "name", S "TEXT NOT NULL")]),
        (S "orders", [(S "oid", S "INTEGER"),
          (S "FOREIGN KEY(oid)", S "REFERENCES users(id)")])].map Prod.fst ∧
      ∀ p ∈ [(S "users", [(S "id", S "INTEGER"), (S "name", S "TEXT NOT NULL")]),
        (S "orders", [(S "oid", S "INTEGER"),
          (S "FOREIGN KEY(oid)", S "REFERENCES users(id)")])],
        ∃ cols, lookupStr tables p.1 = some cols ∧ dataFields cols = dataFields p.2) :=
  ⟨by decide, c7_generate_parse_roundtrip _ (by decide)⟩

end AioRepo
